import Mathlib

/-!
Shallow embedding of the hit configuration-language core of this repository
(src/framework/contrib/hit/parse.h) together with proofs about the claims of
its specification.

The header parse.h declares the node model, the typed-retrieval interface and
the tree algorithms, and contains the full inline implementations of
Node::param, Node::paramOptional and the paramInner specializations; those are
embedded directly from the source.  The bodies of the lexer, the parser, the
Field getters, Node::find, merge and explode are not part of the excerpt
(only their declarations and documentation are), so those definitions are
modelled from the specification, as indicated in their doc comments.

C++ std::string is embedded as List Char; C++ exceptions as Except; machine
integers as Int/Nat with explicit reduction modulo 2^32 where the code
converts int to unsigned int.
-/

namespace Hit

/-- C++ std::string, embedded as the list of its characters. -/
abbrev Str := List Char

/-- Shorthand turning a Lean string literal into the embedded string type. -/
def str (s : String) : Str := s.toList

/-- Field::Kind from parse.h: all possible value types a field can store. -/
inductive Kind
  | none
  | int
  | float
  | bool
  | string
deriving DecidableEq, Repr

/-- Node tree from parse.h (NodeType Root/Section/Comment/Field).  A Section
    carries its header path and ordered children; a Field carries its name,
    inferred Kind and raw string value; a Comment carries its text and the
    inline/block flag.  Tokens/line provenance are not represented: no claim
    under verification depends on them. -/
inductive HNode
  | root (children : List HNode)
  | sec (path : Str) (children : List HNode)
  | field (path : Str) (kind : Kind) (val : Str)
  | comment (text : Str) (isInl : Bool)
deriving Repr

/-- Node::path: the node's own contribution to its full hit path (section
    name or field name, empty for root and comments). -/
def HNode.path : HNode → Str
  | .root _ => []
  | .sec p _ => p
  | .field p _ _ => p
  | .comment _ _ => []

/-- Node::children (the ordered child list; fields and comments have none). -/
def HNode.children : HNode → List HNode
  | .root cs => cs
  | .sec _ cs => cs
  | .field _ _ _ => []
  | .comment _ _ => []

/-- Hit path characters, as defined by the PATH terminal of the grammar in
    parse.h: [a-zA-Z0-9_./:<>+-]. -/
def pathChar (c : Char) : Bool :=
  c.isAlpha || c.isDigit || c = '_' || c = '.' || c = '/' || c = ':' ||
  c = '<' || c = '>' || c = '+' || c = '-'

/-- Splits a string at every slash (the separator itself is dropped). -/
def splitSlash : Str → List Str
  | [] => [[]]
  | c :: cs =>
    if c = '/' then [] :: splitSlash cs
    else
      match splitSlash cs with
      | [] => [[c]]
      | s :: ss => (c :: s) :: ss

/-- Path segments of a hit path: the slash-separated pieces with empty
    pieces and "." pieces dropped (normalization per section 4.5 of the
    spec: consecutive separators collapse and "./" segments are stripped). -/
def segsOf (p : Str) : List Str :=
  (splitSlash p).filter (fun s => decide (s ≠ [] ∧ s ≠ ['.']))

/-- Modelled from the spec: the body of pathNorm is not under src/ (parse.h
    only declares it).  Spec 4.5: collapse consecutive separators, strip "./"
    segments, perform no other resolution. -/
def pathNorm (p : Str) : Str :=
  List.intercalate ['/'] (segsOf p)

/-- Modelled from the spec: the body of pathJoin is not under src/ (parse.h
    only declares it).  Spec 4.5: concatenate the segments with single
    separators, skipping empty segments, producing a normalized result. -/
def pathJoin (ps : List Str) : Str :=
  pathNorm (List.intercalate ['/'] ps)

/-- Modelled from the spec: the body of Node::find/findInner is not under
    src/ (parse.h only declares them).  Spec 4.4: find interprets the path as
    slash-delimited segments relative to the node, descends only into
    children (sections and fields participate in path matching, comments do
    not), and returns the first node whose path match is exact.  A failed
    descent into one matching section continues with the later siblings. -/
def findIn : List HNode → List Str → Option HNode
  | [], _ => Option.none
  | _ :: _, [] => Option.none
  | c :: cs, s :: rest =>
    match c with
    | .sec nm kids =>
      if nm = s then
        match rest with
        | [] => some (.sec nm kids)
        | _ :: _ =>
          match findIn kids rest with
          | some r => some r
          | Option.none => findIn cs (s :: rest)
      else findIn cs (s :: rest)
    | .field nm k v =>
      if nm = s then
        match rest with
        | [] => some (.field nm k v)
        | _ :: _ => findIn cs (s :: rest)
      else findIn cs (s :: rest)
    | _ => findIn cs (s :: rest)
termination_by cs _ => sizeOf cs
decreasing_by all_goals (simp_wf <;> omega)

/-- Node::find on a node: resolve the normalized path's segments against the
    node's children.  An empty path yields no result (findInner never matches
    the node itself). -/
def find (n : HNode) (p : Str) : Option HNode :=
  findIn n.children (segsOf p)

/-- Errors thrown by the value-retrieval interface (spec section 7):
    NotFound, TypeMismatch and UnsupportedType.  Parse errors are a separate
    type, see PErr below. -/
inductive HError
  | notFound (msg : Str)
  | typeMismatch (msg : Str)
  | unsupportedType (msg : Str)
deriving DecidableEq, Repr

/-- Lowercases a string character by character. -/
def lowerStr (s : Str) : Str := s.map Char.toLower

/-- Modelled from the spec: recognition of boolean literals (used by kind
    inference and by Field::boolVal, whose body is not under src/).
    Spec 4.2/6: case-insensitive, true/yes/on mapping to true and
    false/no/off mapping to false. -/
def parseBoolLit (s : Str) : Option Bool :=
  if lowerStr s = str "true" ∨ lowerStr s = str "yes" ∨ lowerStr s = str "on" then
    some true
  else if lowerStr s = str "false" ∨ lowerStr s = str "no" ∨ lowerStr s = str "off" then
    some false
  else
    Option.none

/-- Numeric value of a digit string (most significant digit first). -/
def digitsVal (s : Str) : Nat :=
  s.foldl (fun acc c => 10 * acc + (c.toNat - '0'.toNat)) 0

/-- Integer parse of a full string: optional sign followed by at least one
    digit, nothing else. -/
def parseIntRaw : Str → Option Int
  | '+' :: ds => if ds ≠ [] ∧ ds.all Char.isDigit then some (digitsVal ds) else Option.none
  | '-' :: ds => if ds ≠ [] ∧ ds.all Char.isDigit then some (-(digitsVal ds : Int)) else Option.none
  | ds => if ds ≠ [] ∧ ds.all Char.isDigit then some (digitsVal ds) else Option.none

/-- Modelled from the spec: the integer coercion used by Field::intVal (body
    not under src/).  Spec 4.3: parse the raw string as an integer, failing
    when it does not parse; the C++ result type int is 32-bit, so values
    outside its range fail the parse (std::stoi out-of-range). -/
def parseIntStr (s : Str) : Option Int :=
  (parseIntRaw s).bind fun v =>
    if -(2 ^ 31) ≤ v ∧ v < 2 ^ 31 then some v else Option.none

/-- Longest digit run at the front of a string, with the remainder. -/
def spanDigits (s : Str) : Str × Str := s.span Char.isDigit

/-- Modelled from the spec: the floating coercion used by Field::floatVal
    (body not under src/).  Spec 4.3: parse the raw string as a decimal
    number (optional sign, optional fractional part, optional exponent with
    optional sign, at least one mantissa digit).  The numeric value is
    embedded exactly as a rational; IEEE rounding is outside the embedding. -/
def parseFloatStr (s : Str) : Option ℚ :=
  let sgn : ℚ × Str :=
    match s with
    | '+' :: r => (1, r)
    | '-' :: r => (-1, r)
    | r => (1, r)
  let ip := spanDigits sgn.2
  let fp : Str × Str :=
    match ip.2 with
    | '.' :: r => spanDigits r
    | r => ([], r)
  if ip.1 = [] ∧ fp.1 = [] then Option.none
  else
    let mant : ℚ := (digitsVal (ip.1 ++ fp.1) : ℚ) / (10 : ℚ) ^ fp.1.length
    match fp.2 with
    | [] => some (sgn.1 * mant)
    | e :: r =>
      if e = 'e' ∨ e = 'E' then
        let esgn : Int × Str :=
          match r with
          | '+' :: t => (1, t)
          | '-' :: t => (-1, t)
          | t => (1, t)
        if esgn.2 ≠ [] ∧ esgn.2.all Char.isDigit then
          some (sgn.1 * mant * (10 : ℚ) ^ (esgn.1 * (digitsVal esgn.2 : Int)))
        else Option.none
      else Option.none

/-- Modelled from the spec: Field::boolVal (body not under src/).  Spec 4.3:
    attempt to parse the raw string as a boolean literal and fail with a
    type-mismatch condition if parsing fails, independent of the stored
    Kind; non-value-bearing nodes always fail with a type mismatch. -/
def boolVal : HNode → Except HError Bool
  | .field _ _ v =>
    match parseBoolLit v with
    | some b => .ok b
    | Option.none => .error (.typeMismatch v)
  | _ => .error (.typeMismatch (str "node has no value"))

/-- Modelled from the spec: Field::intVal (body not under src/).  Spec 4.3:
    attempt to parse the raw string as an int and fail with a type-mismatch
    condition if parsing fails, independent of the stored Kind. -/
def intVal : HNode → Except HError Int
  | .field _ _ v =>
    match parseIntStr v with
    | some i => .ok i
    | Option.none => .error (.typeMismatch v)
  | _ => .error (.typeMismatch (str "node has no value"))

/-- Modelled from the spec: Field::floatVal (body not under src/).  Spec 4.3:
    attempt to parse the raw string as a floating number and fail with a
    type-mismatch condition if parsing fails, independent of the stored
    Kind. -/
def floatVal : HNode → Except HError ℚ
  | .field _ _ v =>
    match parseFloatStr v with
    | some q => .ok q
    | Option.none => .error (.typeMismatch v)
  | _ => .error (.typeMismatch (str "node has no value"))

/-- Modelled from the spec: Field::strVal (body not under src/).  Spec 4.3:
    strVal succeeds for every value-bearing node and returns the raw string;
    non-value-bearing nodes fail. -/
def strVal : HNode → Except HError Str
  | .field _ _ v => .ok v
  | _ => .error (.typeMismatch (str "node has no value"))

/-- Whitespace characters used when splitting vector-valued fields. -/
def wsChar (c : Char) : Bool := c = ' ' || c = '\t' || c = '\n'

/-- Whitespace-delimited entries of a raw field value. -/
def splitWs (s : Str) : List Str :=
  (s.splitOnP wsChar).filter (fun t => decide (t ≠ []))

/-- Modelled from the spec: Field::vecIntVal (body not under src/).
    Spec 4.3: split the raw string on whitespace and coerce each element
    independently, all-or-nothing. -/
def vecIntVal : HNode → Except HError (List Int)
  | .field _ _ v =>
    match (splitWs v).mapM parseIntStr with
    | some xs => .ok xs
    | Option.none => .error (.typeMismatch v)
  | _ => .error (.typeMismatch (str "node has no value"))

/-- Modelled from the spec: Field::vecFloatVal (body not under src/). -/
def vecFloatVal : HNode → Except HError (List ℚ)
  | .field _ _ v =>
    match (splitWs v).mapM parseFloatStr with
    | some xs => .ok xs
    | Option.none => .error (.typeMismatch v)
  | _ => .error (.typeMismatch (str "node has no value"))

/-- Modelled from the spec: Field::vecStrVal (body not under src/). -/
def vecStrVal : HNode → Except HError (List Str)
  | .field _ _ v => .ok (splitWs v)
  | _ => .error (.typeMismatch (str "node has no value"))

/-- Field::setVal with an explicit kind argument (parse.h lines 356-360):
    overwrites the raw value; the stored kind is only replaced when the
    passed kind is not None. -/
def setValK (n : HNode) (v : Str) (k : Kind) : HNode :=
  match n with
  | .field nm k0 _ => .field nm (if k = Kind.none then k0 else k) v
  | m => m

/-- Field::setVal with the default kind argument Kind::None: the stored kind
    is unchanged. -/
def setVal (n : HNode) (v : Str) : HNode := setValK n v Kind.none

/-- Node::param, embedded directly from parse.h lines 183-192: with a
    non-empty path the target node is looked up with find and a missing
    result throws the not-found error; with the empty path the node itself
    is used.  The paramInner dispatch for the requested type is passed as
    the function argument. -/
def paramWith (inner : HNode → Except HError α) (n : HNode) (p : Str) :
    Except HError α :=
  match (if p = [] then some n else find n p) with
  | Option.none => .error (.notFound p)
  | some m => inner m

/-- Node::paramOptional, embedded directly from parse.h lines 196-202: when
    find yields nothing the default is returned, otherwise param is
    invoked. -/
def paramOptionalWith (inner : HNode → Except HError α) (n : HNode) (p : Str)
    (d : α) : Except HError α :=
  match find n p with
  | Option.none => .ok d
  | some _ => paramWith inner n p

/-- C++ conversion from int to unsigned int, as performed by the
    paramInner specializations for unsigned int in parse.h lines 233-238 and
    263-272: reduction modulo 2^32 (the standard's conversion rule for
    unsigned types). -/
def cppUIntOfInt (v : Int) : Nat := (v % (2 ^ 32 : Int)).toNat

/-- Conversion from double to float performed by the paramInner
    specializations for float in parse.h lines 239-244 and 279-288.  Numeric
    values are embedded as exact rationals (IEEE precision is outside the
    embedding), so the conversion is value-preserving here. -/
def cppFloatOfDouble (q : ℚ) : ℚ := q

/-- paramInner specialization for bool (parse.h lines 221-226). -/
def innerBool : HNode → Except HError Bool := boolVal

/-- paramInner specialization for int (parse.h lines 227-232). -/
def innerInt : HNode → Except HError Int := intVal

/-- paramInner specialization for unsigned int (parse.h lines 233-238):
    return n->intVal(), implicitly converted to unsigned int. -/
def innerUInt (n : HNode) : Except HError Nat :=
  (intVal n).map cppUIntOfInt

/-- paramInner specialization for float (parse.h lines 239-244):
    return n->floatVal(), implicitly converted to float. -/
def innerFloat (n : HNode) : Except HError ℚ :=
  (floatVal n).map cppFloatOfDouble

/-- paramInner specialization for double (parse.h lines 245-250). -/
def innerDouble : HNode → Except HError ℚ := floatVal

/-- paramInner specialization for std::string (parse.h lines 251-256). -/
def innerStr : HNode → Except HError Str := strVal

/-- paramInner specialization for std::vector of int (parse.h 257-262). -/
def innerVecInt : HNode → Except HError (List Int) := vecIntVal

/-- paramInner specialization for std::vector of unsigned int (parse.h
    lines 263-272): each element of vecIntVal is converted to unsigned. -/
def innerVecUInt (n : HNode) : Except HError (List Nat) :=
  (vecIntVal n).map (List.map cppUIntOfInt)

/-- paramInner specialization for std::vector of float (parse.h 279-288):
    each element of vecFloatVal is converted to float. -/
def innerVecFloat (n : HNode) : Except HError (List ℚ) :=
  (vecFloatVal n).map (List.map cppFloatOfDouble)

/-! Lexer.  Modelled from the spec (4.1) and the terminal definitions in the
    header comment of parse.h; the lexer implementation itself is not under
    src/. -/

/-- Lexer tokens: brackets, equals, path runs, value tokens (raw text, with
    quotes retained for quoted strings) and comments with their
    inline/block classification. -/
inductive Tok
  | lb
  | rb
  | eq
  | path (s : Str)
  | val (s : Str)
  | comment (text : Str) (isInl : Bool)
deriving DecidableEq, Repr

/-- Token with the 1-based source line it starts on. -/
structure Token where
  t : Tok
  line : Nat
deriving DecidableEq, Repr

/-- Lexing/parsing failure before the caller-supplied label is attached:
    offending 1-based line and message. -/
structure PErrRaw where
  line : Nat
  msg : Str
deriving DecidableEq, Repr

/-- ParseError as surfaced by hit::parse (parse.h lines 80-85, 380-385):
    the caller-supplied label, the offending 1-based line and a message. -/
structure PErr where
  label : Str
  line : Nat
  msg : Str
deriving DecidableEq, Repr

/-- Length of List.dropWhile never exceeds the input length. -/
theorem dropWhile_length_le (p : α → Bool) (l : List α) :
    (l.dropWhile p).length ≤ l.length := by
  induction l with
  | nil => simp [List.dropWhile]
  | cons a l ih =>
    rw [List.dropWhile]
    cases p a <;> simp <;> omega

/-- List.dropWhile with its length bound attached, so that callers can
    recurse on the rest without a dependent match. -/
def dropWhileB (p : Char → Bool) (s : Str) : { r : Str // r.length ≤ s.length } :=
  ⟨s.dropWhile p, dropWhile_length_le p s⟩

/-- Modelled from the spec: quoted-string scanning of the lexer (4.1).  The
    body runs to the matching quote character; a backslash escapes the
    character after it (the esc flag records a pending escape); newlines
    inside the body advance the line count; an unterminated quoted string is
    a lexing failure (none).  Returns the body including the closing quote,
    the rest of the input (with its length bound) and the new line. -/
def scanQuoted (q : Char) : (s : Str) → Nat → Bool →
    Option (Str × { r : Str // r.length < s.length } × Nat)
  | [], _, _ => Option.none
  | c :: cs, line, esc =>
    if esc then
      (scanQuoted q cs (if c = '\n' then line + 1 else line) false).map
        (fun r => (c :: r.1, ⟨r.2.1.1, Nat.lt_succ_of_lt r.2.1.2⟩, r.2.2))
    else if c = q then some ([q], ⟨cs, Nat.lt_succ_self _⟩, line)
    else if c = '\\' then
      (scanQuoted q cs line true).map
        (fun r => (c :: r.1, ⟨r.2.1.1, Nat.lt_succ_of_lt r.2.1.2⟩, r.2.2))
    else
      (scanQuoted q cs (if c = '\n' then line + 1 else line) false).map
        (fun r => (c :: r.1, ⟨r.2.1.1, Nat.lt_succ_of_lt r.2.1.2⟩, r.2.2))

/-- Value characters of an unquoted value token (UNQUOTED_STRING_BODY in
    parse.h: any character other than space, tab, newline and the left
    bracket). -/
def valChar (c : Char) : Bool := !(c == ' ' || c == '\t' || c == '\n' || c == '[')

/-- Modelled from the spec: value lexing (4.1).  After an equals sign the
    lexer skips spaces and tabs and reads at most one value token: a quoted
    string (single or double quotes, same-quote-character escaping, possibly
    spanning lines) or an unquoted run of value characters.  When the line
    ends (or a bracket or the end of input follows) before any value, no
    token is produced and the parser reports the missing value.  Returns the
    token (if any), the rest of the input (with its length bound) and the
    current line. -/
def lexVal : (s : Str) → Nat →
    Except PErrRaw (Option Tok × { r : Str // r.length ≤ s.length } × Nat)
  | [], line => .ok (Option.none, ⟨[], Nat.le_refl _⟩, line)
  | c :: cs, line =>
    if c = ' ' ∨ c = '\t' then
      (lexVal cs line).map
        (fun r => (r.1, ⟨r.2.1.1, Nat.le_succ_of_le r.2.1.2⟩, r.2.2))
    else if c = '\n' ∨ c = '[' then .ok (Option.none, ⟨c :: cs, Nat.le_refl _⟩, line)
    else if c = '\'' ∨ c = '"' then
      match scanQuoted c cs line false with
      | some r =>
        .ok (some (.val (c :: r.1)), ⟨r.2.1.1, Nat.le_succ_of_le (Nat.le_of_lt r.2.1.2)⟩, r.2.2)
      | Option.none => .error ⟨line, str "unterminated quoted string"⟩
    else
      .ok (some (.val ((c :: cs).takeWhile valChar)),
           ⟨(c :: cs).dropWhile valChar, dropWhile_length_le _ _⟩, line)

/-- Modelled from the spec: the lexer main loop (4.1), turning raw text into
    tokens.  Spaces and tabs are skipped; a newline advances the 1-based
    line counter and resets the seen-content flag; a hash starts a comment
    running to the end of the line, classified inline exactly when content
    was already seen on the line; a left bracket must be followed by a
    (possibly empty) path-character run and a right bracket; an equals sign
    is followed by value lexing; a path-character run is a path token; any
    other character is a lexing failure at the current line. -/
def lexMain : Str → Nat → Bool → Except PErrRaw (List Token)
  | [], _, _ => .ok []
  | c :: cs, line, seen =>
    if c = ' ' ∨ c = '\t' then lexMain cs line seen
    else if c = '\n' then lexMain cs (line + 1) false
    else if c = '#' then
      (lexMain ((c :: cs).dropWhile (fun d => !(d == '\n'))) line true).map
        (fun ts => ⟨.comment ((c :: cs).takeWhile (fun d => !(d == '\n'))) seen, line⟩ :: ts)
    else if c = '[' then
      match dropWhileB pathChar cs with
      | ⟨']' :: rest, _⟩ =>
        (lexMain rest line true).map
          (fun ts => ⟨.lb, line⟩ :: ⟨.path (cs.takeWhile pathChar), line⟩ :: ⟨.rb, line⟩ :: ts)
      | _ => .error ⟨line, str "invalid section header"⟩
    else if c = '=' then
      match lexVal cs line with
      | .error e => .error e
      | .ok (Option.none, rest, line') =>
        (lexMain rest.1 line' true).map (fun ts => ⟨.eq, line⟩ :: ts)
      | .ok (some t, rest, line') =>
        (lexMain rest.1 line' true).map (fun ts => ⟨.eq, line⟩ :: ⟨t, line'⟩ :: ts)
    else if pathChar c then
      (lexMain ((c :: cs).dropWhile pathChar) line true).map
        (fun ts => ⟨.path ((c :: cs).takeWhile pathChar), line⟩ :: ts)
    else .error ⟨line, str "invalid character"⟩
termination_by s _ _ => s.length
decreasing_by
  · simp
  · simp
  · have h1 : ((c :: cs).dropWhile (fun d => !(d == '\n'))).length ≤ cs.length := by
      rw [List.dropWhile]
      have hc : (!(c == '\n')) = true := by
        simp
        intro hcc
        subst hcc
        simp_all
      rw [hc]
      exact dropWhile_length_le _ _
    simp
    omega
  · rename_i hb
    simp at hb ⊢
    omega
  · rename_i rest line' hb
    have h2 := rest.2
    simp
    omega
  · rename_i t rest line' hb
    have h2 := rest.2
    simp
    omega
  · have h1 : ((c :: cs).dropWhile pathChar).length ≤ cs.length := by
      rw [List.dropWhile]
      have hc : pathChar c = true := by assumption
      rw [hc]
      exact dropWhile_length_le _ _
    simp
    omega

/-! Parser.  Modelled from the spec (4.2); the parser implementation is not
    under src/ (parse.h only declares hit::parse). -/

/-- NUMBER terminal of the grammar comment in parse.h:
    [+-]?[0-9]*(point [0-9]*)? ([eE][+-][0-9]+)? -/
def isNumberTok (s : Str) : Bool :=
  let s1 : Str :=
    match s with
    | '+' :: r => r
    | '-' :: r => r
    | r => r
  let s2 := s1.dropWhile Char.isDigit
  let s3 : Str :=
    match s2 with
    | '.' :: r => r.dropWhile Char.isDigit
    | r => r
  match s3 with
  | [] => true
  | e :: r =>
    (e == 'e' || e == 'E') &&
      (match r with
       | c :: ds => (c == '+' || c == '-') && !ds.isEmpty && ds.all Char.isDigit
       | [] => false)

/-- Detects a decimal point or an exponent character in a numeric literal
    (the Int versus Float distinction of kind inference). -/
def hasDotOrExp (s : Str) : Bool := s.any (fun c => c == '.' || c == 'e' || c == 'E')

/-- Modelled from the spec: kind inference for a parsed value (4.2).  Quoted
    values are String; otherwise the boolean literal set is attempted first,
    then the NUMBER grammar (Int without point/exponent, Float with), and
    everything else is String. -/
def inferKind (v : Str) : Kind :=
  match v with
  | [] => .string
  | q :: _ =>
    if q = '\'' ∨ q = '"' then .string
    else if (parseBoolLit v).isSome then .bool
    else if isNumberTok v then (if hasDotOrExp v then .float else .int)
    else .string

/-- Closing path "../" of a section terminator. -/
def closingDots : Str := str "../"

/-- Modelled from the spec: the parser (4.2).  A single pass over the token
    stream with a stack of open sections: comments become Comment children;
    a bracketed empty or "../" path closes the innermost open section (a
    syntax error at the root); any other bracketed path opens a section; a
    path token must be followed by an equals and a value token and becomes a
    Field with its kind inferred from the raw value text; every other token
    shape is a syntax error.  End of input with an open section is a syntax
    error.  The last argument tracks the line of the latest consumed token
    for end-of-input diagnostics. -/
def runP : List Token → List HNode → List (Str × List HNode) → Nat →
    Except PErrRaw HNode
  | [], acc, [], _ => .ok (.root acc)
  | [], _, _ :: _, lline => .error ⟨lline, str "unterminated section"⟩
  | ⟨.comment txt inl, l⟩ :: rest, acc, stk, _ =>
    runP rest (acc ++ [.comment txt inl]) stk l
  | ⟨.lb, l⟩ :: ⟨.path p, _⟩ :: ⟨.rb, _⟩ :: rest', acc, stk, _ =>
    if p = [] ∨ p = closingDots then
      match stk with
      | [] => .error ⟨l, str "extra closing bracket"⟩
      | f :: stk' => runP rest' (f.2 ++ [.sec f.1 acc]) stk' l
    else runP rest' [] ((p, acc) :: stk) l
  | ⟨.lb, l⟩ :: _, _, _, _ => .error ⟨l, str "invalid section header"⟩
  | ⟨.path p, l⟩ :: ⟨.eq, _⟩ :: ⟨.val v, _⟩ :: rest3, acc, stk, _ =>
    runP rest3 (acc ++ [.field p (inferKind v) v]) stk l
  | ⟨.path _, _⟩ :: ⟨.eq, eline⟩ :: _, _, _, _ =>
    .error ⟨eline, str "field has no value"⟩
  | ⟨.path _, l⟩ :: _, _, _, _ =>
    .error ⟨l, str "expected equals after field name"⟩
  | ⟨.rb, l⟩ :: _, _, _, _ => .error ⟨l, str "unexpected right bracket"⟩
  | ⟨.eq, l⟩ :: _, _, _, _ => .error ⟨l, str "unexpected equals"⟩
  | ⟨.val _, l⟩ :: _, _, _, _ => .error ⟨l, str "unexpected value"⟩

/-- Modelled from the spec: hit::parse, the entry point (6).  Lexes and
    parses the input; any lexical or syntax failure is reported as a
    ParseError carrying the caller-supplied label and the offending 1-based
    line number, and no tree is produced. -/
def parse (fname : Str) (input : Str) : Except PErr HNode :=
  match lexMain input 1 false with
  | .error e => .error ⟨fname, e.line, e.msg⟩
  | .ok ts =>
    match runP ts [] [] 1 with
    | .error e => .error ⟨fname, e.line, e.msg⟩
    | .ok t => .ok t

/-! Render.  Modelled from the spec (4.6): serialization back to concrete
    hit syntax; Node::render's body is not under src/. -/

/-- Indentation: two spaces per nesting level. -/
def indentStr (n : Nat) : Str := List.replicate (2 * n) ' '

mutual
/-- Modelled from the spec: Node::render (4.6): a section renders as its
    bracketed header, the indented body and a bracketed empty terminator; a
    field as name = value; a comment as its text; every rendered line is
    newline-terminated.  Re-parsing the output must reproduce the structure,
    kinds, raw values and child order; exact whitespace is free. -/
def render (ind : Nat) : HNode → Str
  | .root cs => renderList ind cs
  | .sec p cs =>
    indentStr ind ++ [ '[' ] ++ p ++ [ ']', '\n' ] ++ renderList (ind + 1) cs ++
      indentStr ind ++ [ '[', ']', '\n' ]
  | .field p _ v => indentStr ind ++ p ++ [ ' ', '=', ' ' ] ++ v ++ [ '\n' ]
  | .comment txt _ => indentStr ind ++ txt ++ [ '\n' ]

/-- Renders a child list in order, one rendered child after the other. -/
def renderList (ind : Nat) : List HNode → Str
  | [] => []
  | c :: cs => render ind c ++ renderList ind cs
end

/-! Merge.  Modelled from the spec (4.6): path-keyed overlay of one tree
    onto another; the implementation is not under src/. -/

mutual
/-- Modelled from the spec: merging one child of the from tree into an
    into child list (4.6).  A field whose name first matches an existing
    field or section overwrites the matched field's value and kind in place
    (a match of the other variant is left alone, as only fields carry
    values); a section whose name first matches an existing section merges
    recursively into it; an unmatched field or section is cloned and
    appended at the end; comments are not merged. -/
def mergeOne : List HNode → HNode → List HNode
  | cs, .comment _ _ => cs
  | cs, .root _ => cs
  | [], .field nm k v => [.field nm k v]
  | [], .sec nm kids => [.sec nm kids]
  | c :: cs, .field nm k v =>
    match c with
    | .field nm' _ _ =>
      if nm' = nm then .field nm' k v :: cs
      else c :: mergeOne cs (.field nm k v)
    | .sec nm' kids' =>
      if nm' = nm then .sec nm' kids' :: cs
      else c :: mergeOne cs (.field nm k v)
    | d => d :: mergeOne cs (.field nm k v)
  | c :: cs, .sec nm kids =>
    match c with
    | .sec nm' kids' =>
      if nm' = nm then .sec nm' (mergeList kids kids') :: cs
      else c :: mergeOne cs (.sec nm kids)
    | .field nm' k' v' =>
      if nm' = nm then .field nm' k' v' :: cs
      else c :: mergeOne cs (.sec nm kids)
    | d => d :: mergeOne cs (.sec nm kids)
termination_by cs n => (sizeOf n, sizeOf cs)
decreasing_by all_goals (simp_wf <;> omega)

/-- Merges every child of the from list, in order, into the into list. -/
def mergeList (fromKids intoKids : List HNode) : List HNode :=
  match fromKids with
  | [] => intoKids
  | f :: fs => mergeList fs (mergeOne intoKids f)
termination_by (sizeOf fromKids, 0)
decreasing_by all_goals (simp_wf <;> omega)
end

/-- Modelled from the spec: hit::merge (parse.h lines 394-400): the from
    tree's children are merged into the into tree's children and the result
    replaces the into tree's child list; the from tree is a pure input and
    is left unmodified. -/
def merge (f t : HNode) : HNode :=
  match t with
  | .root cs => .root (mergeList f.children cs)
  | .sec p cs => .sec p (mergeList f.children cs)
  | other => other

/-- Name of a path-bearing node (sections and fields). -/
def nodeName : HNode → Option Str
  | .sec nm _ => some nm
  | .field nm _ _ => some nm
  | .root _ => Option.none
  | .comment _ _ => Option.none

/-- Names of the path-bearing children of a list, in order. -/
def sibNames (ns : List HNode) : List Str := ns.filterMap nodeName

/-- First path-bearing child with the given name (the node merge and find
    key on). -/
def lookupName : List HNode → Str → Option HNode
  | [], _ => Option.none
  | c :: cs, s =>
    match c with
    | .sec nm kids => if nm = s then some (.sec nm kids) else lookupName cs s
    | .field nm k v => if nm = s then some (.field nm k v) else lookupName cs s
    | _ => lookupName cs s

mutual
/-- Deep sibling-name uniqueness of a node's children. -/
def uniqN : HNode → Bool
  | .root cs => decide (sibNames cs).Nodup && uniqL cs
  | .sec _ cs => decide (sibNames cs).Nodup && uniqL cs
  | _ => true
termination_by n => sizeOf n
decreasing_by all_goals (simp_wf <;> omega)

/-- Deep sibling-name uniqueness for every member of a list. -/
def uniqL : List HNode → Bool
  | [] => true
  | c :: cs => uniqN c && uniqL cs
termination_by ns => sizeOf ns
decreasing_by all_goals (simp_wf <;> omega)
end

mutual
/-- Variant compatibility of one from-node against an into child list: a
    name borne by a field on one side and a section on the other makes the
    overlay skip the node (merge cannot overwrite across variants), so the
    merge-precedence statement assumes it away; matching sections must be
    compatible recursively. -/
def compat1 : HNode → List HNode → Bool
  | .field nm _ _, fb =>
    match lookupName fb nm with
    | some (.sec _ _) => false
    | _ => true
  | .sec nm kids, fb =>
    match lookupName fb nm with
    | some (.sec _ kidsB) => compatL kids kidsB
    | some (.field _ _ _) => false
    | _ => true
  | _, _ => true
termination_by n _ => (sizeOf n, 0)
decreasing_by all_goals (simp_wf <;> omega)

/-- Variant compatibility of every from-child against the into list. -/
def compatL : List HNode → List HNode → Bool
  | [], _ => true
  | a :: as, fb => compat1 a fb && compatL as fb
termination_by l _ => (sizeOf l, 1)
decreasing_by all_goals (simp_wf <;> omega)
end

/-- Raw value of an optional field lookup result (used to state merge
    precedence and its counterexample). -/
def valOf : Option HNode → Option Str
  | some (.field _ _ v) => some v
  | _ => Option.none

/-! Explode.  Modelled from the spec (4.6): normalization of path-bearing
    names into nested sections; the implementation is not under src/. -/

/-- Does the string contain a slash. -/
def hasSlash (s : Str) : Bool := s.any (fun c => c == '/')

/-- Nonempty slash-separated segments of a node name, as split by
    explode. -/
def nameSegs (s : Str) : List Str :=
  (splitSlash s).filter (fun t => decide (t ≠ []))

/-- Modelled from the spec: placing a relocated node under the chain of
    intermediate sections named by the remaining segments, creating or
    reusing the sections (4.6).  With no segments left the node is appended
    at this level; otherwise the first section at this level whose name
    matches the head segment is descended into (created at the end when
    none exists). -/
def placeAt : List HNode → List Str → HNode → List HNode
  | acc, [], n => acc ++ [n]
  | [], s :: rest, n => [.sec s (placeAt [] rest n)]
  | c :: cs, s :: rest, n =>
    match c with
    | .sec nm kids =>
      if nm = s then .sec nm (placeAt kids rest n) :: cs
      else c :: placeAt cs (s :: rest) n
    | d => d :: placeAt cs (s :: rest) n
termination_by acc segs _ => (segs.length, acc.length)
decreasing_by all_goals (simp_wf <;> omega)

/-- Modelled from the spec: insertion of one already-recursively-exploded
    node into the accumulated sibling list (4.6).  A node whose own name
    carries no slash (and a node whose name splits into no nonempty
    segments, such as a bare slash) is appended unchanged; otherwise the
    node is renamed to its last segment and placed under intermediate
    sections named by the other segments, reusing existing sections. -/
def insertExploded (acc : List HNode) (n : HNode) : List HNode :=
  match n with
  | .comment t b => acc ++ [.comment t b]
  | .root cs => acc ++ [.root cs]
  | .field nm k v =>
    if hasSlash nm then
      match hs : nameSegs nm with
      | [] => acc ++ [.field nm k v]
      | s :: ss =>
        placeAt acc ((s :: ss).dropLast) (.field ((s :: ss).getLast (by simp)) k v)
    else acc ++ [.field nm k v]
  | .sec nm kids =>
    if hasSlash nm then
      match hs : nameSegs nm with
      | [] => acc ++ [.sec nm kids]
      | s :: ss =>
        placeAt acc ((s :: ss).dropLast) (.sec ((s :: ss).getLast (by simp)) kids)
    else acc ++ [.sec nm kids]

mutual
/-- Modelled from the spec: explode of a single node (4.6): containers have
    their child lists exploded; the node's own name is not relocated (the
    walk starts below the given node). -/
def explodeNode : HNode → HNode
  | .root cs => .root (explodeList cs)
  | .sec p cs => .sec p (explodeList cs)
  | n => n
termination_by n => (sizeOf n, 0)
decreasing_by all_goals (simp_wf <;> omega)

/-- Explodes a child list: each child is exploded recursively and then
    inserted, in order, into the accumulated result list. -/
def explodeList (ns : List HNode) : List HNode := explodeGo [] ns
termination_by (sizeOf ns, 1)
decreasing_by all_goals (simp_wf <;> omega)

/-- Worker of explodeList with the accumulated already-inserted sibling
    list. -/
def explodeGo (acc : List HNode) : List HNode → List HNode
  | [] => acc
  | n :: ns => explodeGo (insertExploded acc (explodeNode n)) ns
termination_by ns => (sizeOf ns, 0)
decreasing_by all_goals (simp_wf <;> omega)
end

/-- Modelled from the spec: hit::explode (parse.h lines 402-406), applied to
    the tree root: every field or section below the node whose own path
    segment contains a separator is split into intermediate sections with
    the final segment as its name. -/
def explode (n : HNode) : HNode := explodeNode n

/-- A name is settled for explode when it carries no slash, or splits into
    no nonempty segments (insertExploded appends such nodes unchanged). -/
def settledName (s : Str) : Bool := !hasSlash s || (nameSegs s).isEmpty

mutual
/-- Deep settledness of a node: every field and section name at and below
    it is settled, so explode leaves the subtree untouched. -/
def settledN : HNode → Bool
  | .root cs => settledL cs
  | .sec nm cs => settledName nm && settledL cs
  | .field nm _ _ => settledName nm
  | .comment _ _ => true
termination_by n => sizeOf n
decreasing_by all_goals (simp_wf <;> omega)

/-- Deep settledness of a child list. -/
def settledL : List HNode → Bool
  | [] => true
  | c :: cs => settledN c && settledL cs
termination_by ns => sizeOf ns
decreasing_by all_goals (simp_wf <;> omega)
end

mutual
/-- No field or section at or below this node has a path separator in its
    own path segment (the hypothesis of the second half of the explode
    idempotence claim). -/
def slashFreeN : HNode → Bool
  | .root cs => slashFreeL cs
  | .sec nm cs => !hasSlash nm && slashFreeL cs
  | .field nm _ _ => !hasSlash nm
  | .comment _ _ => true
termination_by n => sizeOf n
decreasing_by all_goals (simp_wf <;> omega)

/-- List version of slashFreeN. -/
def slashFreeL : List HNode → Bool
  | [] => true
  | c :: cs => slashFreeN c && slashFreeL cs
termination_by ns => sizeOf ns
decreasing_by all_goals (simp_wf <;> omega)
end

/-! Helper lemmas. -/

/-- Empty paths resolve to nothing: find with the empty path returns none
    (findInner never matches the node it is called on). -/
theorem find_nil (n : HNode) : find n [] = Option.none := by
  have hs : segsOf ([] : Str) = [] := by simp [segsOf, splitSlash]
  rw [find, hs]
  cases n.children with
  | nil => rw [findIn]
  | cons c cs => rw [findIn]

/-- Values produced by a successful parseIntStr lie in the 32-bit int
    range. -/
theorem parseIntStr_range (s : Str) (v : Int) (h : parseIntStr s = some v) :
    -(2 ^ 31) ≤ v ∧ v < 2 ^ 31 := by
  rw [parseIntStr] at h
  cases hq : parseIntRaw s with
  | none => rw [hq] at h; simp at h
  | some w =>
    rw [hq] at h
    simp at h
    obtain ⟨hr, he⟩ := h
    subst he
    omega

/-- Boolean literal recognition forces kind inference to Bool: a value that
    parseBoolLit accepts cannot start with a quote character, so inferKind
    classifies it Bool. -/
theorem inferKind_of_parseBoolLit (s : Str) (b : Bool)
    (h : parseBoolLit s = some b) : inferKind s = Kind.bool := by
  match s with
  | [] =>
    rw [parseBoolLit] at h
    simp [lowerStr, str] at h
  | q :: rest =>
    have hl : q.toLower = 't' ∨ q.toLower = 'y' ∨ q.toLower = 'o' ∨
        q.toLower = 'f' ∨ q.toLower = 'n' := by
      rw [parseBoolLit] at h
      by_cases h1 : lowerStr (q :: rest) = str "true" ∨
          lowerStr (q :: rest) = str "yes" ∨ lowerStr (q :: rest) = str "on"
      · rcases h1 with h1 | h1 | h1 <;>
          (simp [lowerStr, str] at h1; simp [h1.1])
      · rw [if_neg h1] at h
        by_cases h2 : lowerStr (q :: rest) = str "false" ∨
            lowerStr (q :: rest) = str "no" ∨ lowerStr (q :: rest) = str "off"
        · rcases h2 with h2 | h2 | h2 <;>
            (simp [lowerStr, str] at h2; simp [h2.1])
        · rw [if_neg h2] at h
          simp at h
    have hq : ¬(q = '\'' ∨ q = '"') := by
      intro hc
      rcases hc with hc | hc <;> (subst hc; revert hl; decide)
    rw [inferKind]
    simp only [if_neg hq]
    simp [h]

/-! Claim C1. -/

/-- C1: for every Field node, each typed getter (boolVal, intVal, floatVal)
    succeeds or fails based solely on whether the field's raw string value
    parses as the requested form, independent of the field's stored inferred
    Kind; in particular, a Field whose kind is Bool but whose value has been
    set to "42" (setVal with the default kind argument, which keeps the
    stored kind Bool) still satisfies intVal() returning 42. -/
theorem C1_typed_getters_kind_independent (nm v : Str) (k k' : Kind) :
    (boolVal (.field nm k v) = boolVal (.field nm k' v) ∧
     intVal (.field nm k v) = intVal (.field nm k' v) ∧
     floatVal (.field nm k v) = floatVal (.field nm k' v)) ∧
    ((boolVal (.field nm k v)).isOk ↔ (parseBoolLit v).isSome) ∧
    ((intVal (.field nm k v)).isOk ↔ (parseIntStr v).isSome) ∧
    ((floatVal (.field nm k v)).isOk ↔ (parseFloatStr v).isSome) ∧
    (setVal (.field nm Kind.bool v) (str "42") = .field nm Kind.bool (str "42") ∧
     intVal (setVal (.field nm Kind.bool v) (str "42")) = .ok 42) := by
  refine ⟨⟨rfl, rfl, rfl⟩, ?_, ?_, ?_, ?_, ?_⟩
  · cases h : parseBoolLit v <;> simp [boolVal, h, Except.isOk, Except.toBool]
  · cases h : parseIntStr v <;> simp [intVal, h, Except.isOk, Except.toBool]
  · cases h : parseFloatStr v <;> simp [floatVal, h, Except.isOk, Except.toBool]
  · rfl
  · rfl

/-! Claim C2. -/

/-- C2: paramOptional returns the default exactly when find yields no node
    at the path; otherwise it returns exactly what param returns, which on a
    found node is the underlying getter's result - so type-mismatch and
    coercion failures are still raised and never replaced by the default. -/
theorem C2_paramOptional_default_only_on_notfound
    (inner : HNode → Except HError α) (n : HNode) (p : Str) (d : α) :
    (find n p = Option.none → paramOptionalWith inner n p d = .ok d) ∧
    (∀ m, find n p = some m →
      paramOptionalWith inner n p d = paramWith inner n p ∧
      paramWith inner n p = inner m) := by
  constructor
  · intro h
    rw [paramOptionalWith, h]
  · intro m h
    have hp : p ≠ [] := by
      intro he
      subst he
      rw [find_nil] at h
      exact Option.noConfusion h
    constructor
    · rw [paramOptionalWith, h]
    · rw [paramWith]
      simp only [if_neg hp, h]

/-- Witness for C2 at concrete inputs: a lookup of a missing path yields the
    default, and a lookup of a present path with unparseable text propagates
    the type-mismatch failure instead of the default. -/
theorem C2_witness :
    paramOptionalWith innerInt
      (HNode.root [HNode.field (str "x") Kind.int (str "hi")]) (str "y") 7 = .ok 7 ∧
    paramOptionalWith innerInt
      (HNode.root [HNode.field (str "x") Kind.int (str "hi")]) (str "x") 7 =
      .error (.typeMismatch (str "hi")) := by
  constructor
  · exact (C2_paramOptional_default_only_on_notfound innerInt
      (HNode.root [HNode.field (str "x") Kind.int (str "hi")]) (str "y") 7).1
      (by simp [find, findIn, segsOf, splitSlash, str, HNode.children])
  · have h := (C2_paramOptional_default_only_on_notfound innerInt
      (HNode.root [HNode.field (str "x") Kind.int (str "hi")]) (str "x") 7).2
      (HNode.field (str "x") Kind.int (str "hi"))
      (by simp [find, findIn, segsOf, splitSlash, str, HNode.children])
    rw [h.1, h.2]
    rfl

/-! Claim C9. -/

/-- C9: param invoked with the empty path (the default argument) retrieves
    the value from the node itself and never raises the not-found error; the
    not-found error is raised exactly when a non-empty path is given and
    find returns no node. -/
theorem C9_param_empty_path_never_notfound
    (inner : HNode → Except HError α) (n : HNode) (p : Str) :
    (paramWith inner n [] = inner n) ∧
    (∀ m, find n p = some m → paramWith inner n p = inner m) ∧
    (p ≠ [] → find n p = Option.none →
      paramWith inner n p = .error (.notFound p)) := by
  refine ⟨?_, ?_, ?_⟩
  · rw [paramWith]
    simp
  · intro m h
    have hp : p ≠ [] := by
      intro he
      subst he
      rw [find_nil] at h
      exact Option.noConfusion h
    rw [paramWith]
    simp only [if_neg hp, h]
  · intro hp h
    rw [paramWith]
    simp only [if_neg hp, h]

/-- Witness for C9 at concrete inputs: the empty path reads the node itself
    (here failing with a type mismatch, not not-found, on a root node), and
    a missing non-empty path raises the not-found error. -/
theorem C9_witness :
    paramWith innerInt (HNode.field (str "x") Kind.int (str "5")) [] = .ok 5 ∧
    paramWith innerInt (HNode.root [HNode.field (str "x") Kind.int (str "5")]) (str "y") =
      .error (.notFound (str "y")) := by
  constructor
  · have h := (C9_param_empty_path_never_notfound innerInt
      (HNode.field (str "x") Kind.int (str "5")) (str "y")).1
    rw [h]
    rfl
  · exact (C9_param_empty_path_never_notfound innerInt
      (HNode.root [HNode.field (str "x") Kind.int (str "5")]) (str "y")).2.2
      (by simp [str])
      (by simp [find, findIn, segsOf, splitSlash, str, HNode.children])

/-! Claim C10. -/

/-- C10: param for unsigned int and for vectors of unsigned int retrieve
    through intVal/vecIntVal and convert each signed int result to unsigned
    int, so a field whose text parses to a negative integer does not fail
    but yields the value reduced modulo 2^32; likewise param for float and
    vectors of float retrieve through floatVal/vecFloatVal with the
    double-to-float conversion applied to each value (value-preserving in
    this exact-rational embedding of the numeric types). -/
theorem C10_unsigned_and_float_narrowing (n : HNode) :
    (innerUInt n = (intVal n).map cppUIntOfInt) ∧
    (innerVecUInt n = (vecIntVal n).map (List.map cppUIntOfInt)) ∧
    (innerFloat n = (floatVal n).map cppFloatOfDouble) ∧
    (innerVecFloat n = (vecFloatVal n).map (List.map cppFloatOfDouble)) ∧
    (∀ nm k v i, intVal (.field nm k v) = .ok i → i < 0 →
      innerUInt (.field nm k v) = .ok ((i + 2 ^ 32).toNat)) := by
  refine ⟨rfl, rfl, rfl, rfl, ?_⟩
  intro nm k v i h hneg
  have hrange : -(2 ^ 31) ≤ i ∧ i < 2 ^ 31 := by
    rw [intVal] at h
    cases hp : parseIntStr v with
    | none => rw [hp] at h; exact Except.noConfusion h
    | some w =>
      rw [hp] at h
      simp at h
      have hw := parseIntStr_range v w hp
      omega
  rw [innerUInt, h]
  simp [cppUIntOfInt, Except.map]
  omega

/-- Witness for C10 at a concrete negative field: the int value -5 is
    retrieved as the unsigned value 2^32 - 5 instead of failing. -/
theorem C10_witness :
    intVal (HNode.field (str "x") Kind.int (str "-5")) = .ok (-5) ∧
    innerUInt (HNode.field (str "x") Kind.int (str "-5")) = .ok 4294967291 := by
  constructor
  · rfl
  · have h := (C10_unsigned_and_float_narrowing
      (HNode.field (str "x") Kind.int (str "-5"))).2.2.2.2
      (str "x") Kind.int (str "-5") (-5) rfl (by norm_num)
    rw [h]
    simp

/-! Claim C3. -/

/-- C3: boolean literal recognition in kind inference and in boolVal
    coercion is case-insensitive over true/yes/on mapping to true and
    false/no/off mapping to false: every casing of these words is classified
    Bool and coerces to the corresponding truth value. -/
theorem C3_bool_recognition_case_insensitive (s nm : Str) (k : Kind) :
    ((lowerStr s = str "true" ∨ lowerStr s = str "yes" ∨ lowerStr s = str "on") →
      inferKind s = Kind.bool ∧ boolVal (.field nm k s) = .ok true) ∧
    ((lowerStr s = str "false" ∨ lowerStr s = str "no" ∨ lowerStr s = str "off") →
      inferKind s = Kind.bool ∧ boolVal (.field nm k s) = .ok false) := by
  constructor
  · intro h
    have hlit : parseBoolLit s = some true := by
      rw [parseBoolLit, if_pos h]
    exact ⟨inferKind_of_parseBoolLit s true hlit, by rw [boolVal, hlit]⟩
  · intro h
    have hne : ¬(lowerStr s = str "true" ∨ lowerStr s = str "yes" ∨
        lowerStr s = str "on") := by
      rcases h with h | h | h <;> (rw [h]; decide)
    have hlit : parseBoolLit s = some false := by
      rw [parseBoolLit, if_neg hne, if_pos h]
    exact ⟨inferKind_of_parseBoolLit s false hlit, by rw [boolVal, hlit]⟩

/-! Claim C7 helper lemmas. -/

/-- Auxiliary step for lexMain_line_lb: a mapped lexer recursion that only
    conses tokens at the current line preserves both line lower bounds. -/
theorem lexMap_line_lb {f : List Token → List Token}
    {r : Except PErrRaw (List Token)} {line : Nat}
    (hrec : (∀ e, r = Except.error e → line ≤ e.line) ∧
            (∀ ts, r = Except.ok ts → ∀ tk ∈ ts, line ≤ tk.line))
    (hf : ∀ ts, (∀ tk ∈ ts, line ≤ tk.line) → ∀ tk ∈ f ts, line ≤ tk.line) :
    (∀ e, r.map f = Except.error e → line ≤ e.line) ∧
    (∀ ts, r.map f = Except.ok ts → ∀ tk ∈ ts, line ≤ tk.line) := by
  constructor
  · intro e h
    cases r with
    | error e' =>
      simp [Except.map] at h
      subst h
      exact hrec.1 e' rfl
    | ok ts => simp [Except.map] at h
  · intro ts h tk htk
    cases r with
    | error e' => simp [Except.map] at h
    | ok ts' =>
      simp [Except.map] at h
      subst h
      exact hf ts' (hrec.2 ts' rfl) tk htk

/-- Line numbers never decrease through quoted-string scanning. -/
theorem scanQuoted_line (q : Char) :
    ∀ s line esc r, scanQuoted q s line esc = some r → line ≤ r.2.2 := by
  intro s
  induction s with
  | nil => intro line esc r h; rw [scanQuoted] at h; exact Option.noConfusion h
  | cons c cs ih =>
    intro line esc r h
    rw [scanQuoted] at h
    by_cases he : esc
    · rw [if_pos he] at h
      cases hr : scanQuoted q cs (if c = '\n' then line + 1 else line) false with
      | none => rw [hr] at h; exact Option.noConfusion h
      | some r' =>
        rw [hr] at h
        simp at h
        have := ih _ _ _ hr
        subst h
        simp
        by_cases hc : c = '\n' <;> simp [hc] at this <;> omega
    · rw [if_neg he] at h
      by_cases hq : c = q
      · rw [if_pos hq] at h
        simp at h
        subst h
        exact Nat.le_refl _
      · rw [if_neg hq] at h
        by_cases hb : c = '\\'
        · rw [if_pos hb] at h
          cases hr : scanQuoted q cs line true with
          | none => rw [hr] at h; exact Option.noConfusion h
          | some r' =>
            rw [hr] at h
            simp at h
            have := ih _ _ _ hr
            subst h
            simpa using this
        · rw [if_neg hb] at h
          cases hr : scanQuoted q cs (if c = '\n' then line + 1 else line) false with
          | none => rw [hr] at h; exact Option.noConfusion h
          | some r' =>
            rw [hr] at h
            simp at h
            have := ih _ _ _ hr
            subst h
            simp
            by_cases hc : c = '\n' <;> simp [hc] at this <;> omega

/-- Line numbers never decrease through value lexing. -/
theorem lexVal_line :
    ∀ s line x, lexVal s line = .ok x → line ≤ x.2.2 := by
  intro s
  induction s with
  | nil =>
    intro line x h
    rw [lexVal] at h
    simp at h
    subst h
    exact Nat.le_refl _
  | cons c cs ih =>
    intro line x h
    rw [lexVal] at h
    by_cases h1 : c = ' ' ∨ c = '\t'
    · rw [if_pos h1] at h
      cases hr : lexVal cs line with
      | error e => rw [hr] at h; exact Except.noConfusion h
      | ok y =>
        rw [hr] at h
        simp [Except.map] at h
        have := ih _ _ hr
        subst h
        exact this
    · rw [if_neg h1] at h
      by_cases h2 : c = '\n' ∨ c = '['
      · rw [if_pos h2] at h
        simp at h
        subst h
        exact Nat.le_refl _
      · rw [if_neg h2] at h
        by_cases h3 : c = '\'' ∨ c = '"'
        · rw [if_pos h3] at h
          cases hr : scanQuoted c cs line false with
          | none => rw [hr] at h; exact Except.noConfusion h
          | some r =>
            rw [hr] at h
            simp at h
            have := scanQuoted_line c cs line false r hr
            subst h
            exact this
        · rw [if_neg h3] at h
          simp at h
          subst h
          exact Nat.le_refl _

/-- Errors raised by value lexing carry the current line or later. -/
theorem lexVal_err_line :
    ∀ s line e, lexVal s line = .error e → line ≤ e.line := by
  intro s
  induction s with
  | nil =>
    intro line e h
    rw [lexVal] at h
    exact Except.noConfusion h
  | cons c cs ih =>
    intro line e h
    rw [lexVal] at h
    by_cases h1 : c = ' ' ∨ c = '\t'
    · rw [if_pos h1] at h
      cases hr : lexVal cs line with
      | error e' =>
        rw [hr] at h
        simp [Except.map] at h
        subst h
        exact ih line e' hr
      | ok y => rw [hr] at h; simp [Except.map] at h
    · rw [if_neg h1] at h
      by_cases h2 : c = '\n' ∨ c = '['
      · rw [if_pos h2] at h
        exact Except.noConfusion h
      · rw [if_neg h2] at h
        by_cases h3 : c = '\'' ∨ c = '"'
        · rw [if_pos h3] at h
          cases hr : scanQuoted c cs line false with
          | none =>
            rw [hr] at h
            simp at h
            subst h
            exact Nat.le_refl _
          | some r => rw [hr] at h; exact Except.noConfusion h
        · rw [if_neg h3] at h
          exact Except.noConfusion h

/-- Every error and every token produced by the lexer main loop carries a
    line number at least the starting line. -/
theorem lexMain_line_lb (s : Str) (line : Nat) (seen : Bool) :
    (∀ e, lexMain s line seen = .error e → line ≤ e.line) ∧
    (∀ ts, lexMain s line seen = .ok ts → ∀ tk ∈ ts, line ≤ tk.line) := by
  induction s, line, seen using lexMain.induct
  case case1 line seen =>
    constructor
    · intro e h
      rw [lexMain] at h
      exact Except.noConfusion h
    · intro ts h tk htk
      rw [lexMain] at h
      simp at h
      subst h
      simp at htk
  case case2 c cs line seen h1 ih =>
    rw [lexMain, if_pos h1]
    exact ih
  case case3 cs line seen h1 ih =>
    rw [lexMain, if_neg h1, if_pos rfl]
    constructor
    · intro e h
      have := ih.1 e h
      omega
    · intro ts h tk htk
      have := ih.2 ts h tk htk
      omega
  case case4 cs line seen h1 h2 ih =>
    rw [lexMain, if_neg h1, if_neg h2, if_pos rfl]
    apply lexMap_line_lb ih
    intro ts hts tk htk
    simp at htk
    rcases htk with h | h
    · subst h
      exact Nat.le_refl _
    · exact hts tk h
  case case5 cs line seen rest hprop hm h1 h2 h3 ih =>
    rw [lexMain, if_neg h1, if_neg h2, if_neg h3, if_pos rfl, hm]
    apply lexMap_line_lb ih
    intro ts hts tk htk
    simp at htk
    rcases htk with h | h | h | h
    · subst h
      exact Nat.le_refl _
    · subst h
      exact Nat.le_refl _
    · subst h
      exact Nat.le_refl _
    · exact hts tk h
  case case6 cs line seen hnm h1 h2 h3 =>
    rw [lexMain, if_neg h1, if_neg h2, if_neg h3, if_pos rfl]
    constructor
    · intro e h
      match hm : dropWhileB pathChar cs with
      | ⟨']' :: rest, hb⟩ => exact absurd hm (hnm rest hb)
      | ⟨[], hb⟩ =>
        rw [hm] at h
        simp at h
        subst h
        simp
      | ⟨d :: rest, hb⟩ =>
        rcases eq_or_ne d ']' with hd | hd
        · subst hd
          exact absurd hm (hnm rest hb)
        · rw [hm] at h
          simp [hd] at h
          subst h
          simp
    · intro ts h
      match hm : dropWhileB pathChar cs with
      | ⟨']' :: rest, hb⟩ => exact absurd hm (hnm rest hb)
      | ⟨[], hb⟩ =>
        rw [hm] at h
        simp at h
      | ⟨d :: rest, hb⟩ =>
        rcases eq_or_ne d ']' with hd | hd
        · subst hd
          exact absurd hm (hnm rest hb)
        · rw [hm] at h
          simp [hd] at h
  case case7 cs line seen e0 hlv h1 h2 h3 h4 =>
    rw [lexMain, if_neg h1, if_neg h2, if_neg h3, if_neg h4, if_pos rfl, hlv]
    constructor
    · intro e h
      simp at h
      subst h
      exact lexVal_err_line cs line e0 hlv
    · intro ts h
      simp at h
  case case8 cs line seen rest line' hlv h1 h2 h3 h4 ih =>
    have hll : line ≤ line' := by
      have := lexVal_line cs line _ hlv
      simpa using this
    rw [lexMain, if_neg h1, if_neg h2, if_neg h3, if_neg h4, if_pos rfl, hlv]
    apply lexMap_line_lb
    · constructor
      · intro e h
        have := ih.1 e h
        omega
      · intro ts h tk htk
        have := ih.2 ts h tk htk
        omega
    · intro ts hts tk htk
      simp at htk
      rcases htk with h | h
      · subst h
        exact Nat.le_refl _
      · exact hts tk h
  case case9 cs line seen t rest line' hlv h1 h2 h3 h4 ih =>
    have hll : line ≤ line' := by
      have := lexVal_line cs line _ hlv
      simpa using this
    rw [lexMain, if_neg h1, if_neg h2, if_neg h3, if_neg h4, if_pos rfl, hlv]
    apply lexMap_line_lb
    · constructor
      · intro e h
        have := ih.1 e h
        omega
      · intro ts h tk htk
        have := ih.2 ts h tk htk
        omega
    · intro ts hts tk htk
      simp at htk
      rcases htk with h | h | h
      · subst h
        exact Nat.le_refl _
      · subst h
        exact hll
      · exact hts tk h
  case case10 c cs line seen h1 h2 h3 h4 h5 hpc ih =>
    rw [lexMain, if_neg h1, if_neg h2, if_neg h3, if_neg h4, if_neg h5, if_pos hpc]
    apply lexMap_line_lb ih
    intro ts hts tk htk
    simp at htk
    rcases htk with h | h
    · subst h
      exact Nat.le_refl _
    · exact hts tk h
  case case11 c cs line seen h1 h2 h3 h4 h5 h6 =>
    rw [lexMain, if_neg h1, if_neg h2, if_neg h3, if_neg h4, if_neg h5]
    have hpc : pathChar c ≠ true := h6
    rw [if_neg hpc]
    constructor
    · intro e h
      simp at h
      subst h
      simp
    · intro ts h
      simp at h

/-- Every error produced by the parser pass carries a positive line number,
    provided the tokens and the running line are positive. -/
theorem runP_line_lb :
    ∀ ts acc stk lline, 1 ≤ lline →
      (∀ tk ∈ ts, 1 ≤ tk.line) →
      ∀ e, runP ts acc stk lline = .error e → 1 ≤ e.line := by
  intro ts acc stk lline
  induction ts, acc, stk, lline using runP.induct
  all_goals intro h1 h2 e h
  all_goals rw [runP.eq_def] at h
  all_goals try simp only [] at h
  case case1 => exact Except.noConfusion h
  case case2 =>
    simp at h
    subst h
    exact h1
  case case3 ih =>
    exact ih (h2 _ (List.mem_cons_self _ _)) (fun t ht => h2 t (by simp [ht])) e h
  case case4 l p pl rl rest' acc2 lline2 hcl =>
    rw [if_pos hcl] at h
    simp at h
    subst h
    exact h2 _ (List.mem_cons_self _ _)
  case case5 l p pl rl rest' acc2 lline2 hcl f stk' ih =>
    rw [if_pos hcl] at h
    exact ih (h2 _ (List.mem_cons_self _ _)) (fun t ht => h2 t (by simp [ht])) e h
  case case6 l p pl rl rest' acc2 stk2 lline2 hncl ih =>
    rw [if_neg hncl] at h
    exact ih (h2 _ (List.mem_cons_self _ _)) (fun t ht => h2 t (by simp [ht])) e h
  case case8 ih =>
    exact ih (h2 _ (List.mem_cons_self _ _)) (fun t ht => h2 t (by simp [ht])) e h
  all_goals simp at h
  all_goals subst h
  all_goals
    first
      | exact h2 _ (List.mem_cons_self _ _)
      | exact h2 _ (List.mem_cons_of_mem _ (List.mem_cons_self _ _))

/-- C7: parsing is fail-fast and all-or-nothing: for every input text and
    caller-supplied label, parse either returns a complete tree or raises a
    single ParseError carrying that label and a positive 1-based offending
    line number; no partial tree is ever returned (the Except result admits
    no other outcome, and the first lexical or syntax violation is the one
    reported). -/
theorem C7_parse_failfast_label_line (fname input : Str) :
    (∃ t, parse fname input = .ok t) ∨
    (∃ line msg, parse fname input = .error ⟨fname, line, msg⟩ ∧ 1 ≤ line) := by
  cases hl : lexMain input 1 false with
  | error e =>
    right
    refine ⟨e.line, e.msg, ?_, (lexMain_line_lb input 1 false).1 e hl⟩
    simp only [parse, hl]
  | ok ts =>
    cases hr : runP ts [] [] 1 with
    | error e =>
      right
      refine ⟨e.line, e.msg, ?_, ?_⟩
      · simp only [parse, hl, hr]
      · exact runP_line_lb ts [] [] 1 (by norm_num)
          ((lexMain_line_lb input 1 false).2 ts hl) e hr
    | ok t =>
      left
      exact ⟨t, by simp only [parse, hl, hr]⟩

/-- Witness for C3 at the concrete casings of the spec scenario plus a mixed
    casing: "ON" and "True" infer Bool and coerce to true, "off" infers Bool
    and coerces to false. -/
theorem C3_witness :
    (inferKind (str "ON") = Kind.bool ∧
      boolVal (.field (str "b") Kind.bool (str "ON")) = .ok true) ∧
    (inferKind (str "True") = Kind.bool ∧
      boolVal (.field (str "b") Kind.string (str "True")) = .ok true) ∧
    (inferKind (str "off") = Kind.bool ∧
      boolVal (.field (str "b") Kind.bool (str "off")) = .ok false) := by
  refine ⟨?_, ?_, ?_⟩
  · exact (C3_bool_recognition_case_insensitive (str "ON") (str "b") Kind.bool).1
      (by decide)
  · exact (C3_bool_recognition_case_insensitive (str "True") (str "b") Kind.string).1
      (by decide)
  · exact (C3_bool_recognition_case_insensitive (str "off") (str "b") Kind.bool).2
      (by decide)

/-! Claim C5. -/

/-- Pieces produced by splitSlash contain no slash. -/
theorem splitSlash_no_slash : ∀ s, ∀ t ∈ splitSlash s, hasSlash t = false := by
  intro s
  induction s with
  | nil =>
    intro t ht
    simp [splitSlash] at ht
    subst ht
    simp [hasSlash]
  | cons c cs ih =>
    intro t ht
    rw [splitSlash] at ht
    by_cases hc : c = '/'
    · rw [if_pos hc] at ht
      simp at ht
      rcases ht with h | h
      · subst h
        simp [hasSlash]
      · exact ih t h
    · rw [if_neg hc] at ht
      cases hsp : splitSlash cs with
      | nil =>
        rw [hsp] at ht
        simp at ht
        subst ht
        simp [hasSlash, hc]
      | cons s0 ss =>
        rw [hsp] at ht
        simp at ht
        rcases ht with h | h
        · subst h
          have h0 : hasSlash s0 = false := ih s0 (by rw [hsp]; simp)
          simp [hasSlash] at h0 ⊢
          exact ⟨hc, h0⟩
        · exact ih t (by rw [hsp]; simp [h])

/-- Segments produced by nameSegs are nonempty and slash-free. -/
theorem nameSegs_prop (s : Str) : ∀ t ∈ nameSegs s, hasSlash t = false ∧ t ≠ [] := by
  intro t ht
  rw [nameSegs] at ht
  rw [List.mem_filter] at ht
  refine ⟨splitSlash_no_slash s t ht.1, ?_⟩
  have := ht.2
  simpa using this

/-- Slash-free names are settled. -/
theorem settledName_of_no_slash (s : Str) (h : hasSlash s = false) :
    settledName s = true := by
  simp [settledName, h]

/-- Settledness distributes over list append. -/
theorem settledL_append : ∀ as bs : List HNode,
    settledL (as ++ bs) = (settledL as && settledL bs) := by
  intro as bs
  induction as with
  | nil => simp [settledL]
  | cons c cs ih =>
    rw [List.cons_append, settledL, settledL, ih]
    simp [Bool.and_assoc]

/-- placeAt preserves deep settledness when the segments are slash-free and
    the placed node is settled. -/
theorem placeAt_settled :
    ∀ acc segs n, settledL acc = true →
      (∀ s ∈ segs, hasSlash s = false) → settledN n = true →
      settledL (placeAt acc segs n) = true := by
  intro acc segs n
  induction acc, segs, n using placeAt.induct with
  | case1 acc n =>
    intro ha hs hn
    rw [placeAt, settledL_append]
    simp [ha, settledL, hn]
  | case2 s rest n ih =>
    intro ha hs hn
    rw [placeAt]
    have hrec := ih (by rw [settledL]) (fun t ht => hs t (by simp [ht])) hn
    rw [settledL, settledN]
    simp [settledName_of_no_slash s (hs s (by simp)), hrec, settledL]
  | case3 cs rest n nm kids ih =>
    intro ha hs hn
    rw [placeAt]
    rw [if_pos rfl]
    rw [settledL] at ha ⊢
    rw [settledN] at ha ⊢
    simp at ha ⊢
    exact ⟨⟨ha.1.1, ih ha.1.2 (fun t ht => hs t (by simp [ht])) hn⟩, ha.2⟩
  | case4 cs s rest n nm kids hne ih =>
    intro ha hs hn
    rw [placeAt]
    rw [if_neg hne]
    rw [settledL] at ha ⊢
    simp at ha ⊢
    exact ⟨ha.1, ih ha.2 hs hn⟩
  | case5 c cs s rest n hnot ih =>
    intro ha hs hn
    rw [placeAt]
    · rw [settledL] at ha ⊢
      simp at ha ⊢
      exact ⟨ha.1, ih ha.2 hs hn⟩
    · exact hnot

/-- insertExploded preserves deep settledness of the accumulated list when
    the inserted node's children are settled. -/
theorem insertExploded_settled (acc : List HNode) (m : HNode)
    (ha : settledL acc = true) (hm : settledL m.children = true) :
    settledL (insertExploded acc m) = true := by
  cases m with
  | comment t b =>
    rw [insertExploded, settledL_append]
    simp [ha, settledL, settledN]
  | root cs =>
    rw [insertExploded, settledL_append]
    simp only [HNode.children] at hm
    simp [ha, settledL, settledN, hm]
  | field nm k v =>
    rw [insertExploded]
    by_cases hsl : hasSlash nm
    · simp only [if_pos hsl]
      cases hseg : nameSegs nm with
      | nil =>
        rw [settledL_append]
        simp [ha, settledL, settledN, settledName, hseg]
      | cons s ss =>
        apply placeAt_settled _ _ _ ha
        · intro t ht
          exact (nameSegs_prop nm t (by rw [hseg]; exact List.dropLast_subset _ ht)).1
        · rw [settledN]
          apply settledName_of_no_slash
          exact (nameSegs_prop nm _ (by rw [hseg]; exact List.getLast_mem _)).1
    · simp only [if_neg hsl]
      rw [settledL_append]
      simp at hsl
      simp [ha, settledL, settledN, settledName, hsl]
  | sec nm kids =>
    simp only [HNode.children] at hm
    rw [insertExploded]
    by_cases hsl : hasSlash nm
    · simp only [if_pos hsl]
      cases hseg : nameSegs nm with
      | nil =>
        rw [settledL_append]
        simp [ha, settledL, settledN, settledName, hseg, hm]
      | cons s ss =>
        apply placeAt_settled _ _ _ ha
        · intro t ht
          exact (nameSegs_prop nm t (by rw [hseg]; exact List.dropLast_subset _ ht)).1
        · rw [settledN]
          have : settledName ((s :: ss).getLast (by simp)) = true := by
            apply settledName_of_no_slash
            exact (nameSegs_prop nm _ (by rw [hseg]; exact List.getLast_mem _)).1
          simp [this, hm]
    · simp only [if_neg hsl]
      rw [settledL_append]
      simp at hsl
      simp [ha, settledL, settledN, settledName, hsl, hm]

/-- insertExploded appends a deeply settled node unchanged. -/
theorem insertExploded_id (acc : List HNode) (m : HNode)
    (hm : settledN m = true) : insertExploded acc m = acc ++ [m] := by
  cases m with
  | comment t b => rw [insertExploded]
  | root cs => rw [insertExploded]
  | field nm k v =>
    rw [settledN, settledName] at hm
    rw [insertExploded]
    by_cases hsl : hasSlash nm
    · simp only [if_pos hsl]
      simp [hsl] at hm
      have hseg : nameSegs nm = [] := by simpa using hm
      rw [hseg]
    · simp only [if_neg hsl]
  | sec nm kids =>
    rw [settledN] at hm
    simp [settledName] at hm
    rw [insertExploded]
    by_cases hsl : hasSlash nm
    · simp only [if_pos hsl]
      rcases hm.1 with h | h
      · rw [hsl] at h
        exact Bool.noConfusion h
      · have hseg : nameSegs nm = [] := by simpa using h
        rw [hseg]
    · simp only [if_neg hsl]

/-- Master lemma for explode: the exploded output is deeply settled, and an
    already settled input passes through unchanged. -/
theorem explode_master (N : Nat) :
    (∀ ns acc, sizeOf ns ≤ N → settledL acc = true →
      settledL (explodeGo acc ns) = true) ∧
    (∀ ns acc, sizeOf ns ≤ N → settledL ns = true →
      explodeGo acc ns = acc ++ ns) ∧
    (∀ n, sizeOf n ≤ N → settledN n = true → explodeNode n = n) ∧
    (∀ n, sizeOf n ≤ N → settledL (HNode.children (explodeNode n)) = true) := by
  induction N with
  | zero =>
    refine ⟨?_, ?_, ?_, ?_⟩
    · intro ns acc hsz
      cases ns <;> simp at hsz
    · intro ns acc hsz
      cases ns <;> simp at hsz
    · intro n hsz
      cases n <;> simp at hsz
    · intro n hsz
      cases n <;> simp at hsz
  | succ N ih =>
    refine ⟨?_, ?_, ?_, ?_⟩
    · intro ns acc hsz ha
      match ns with
      | [] =>
        rw [explodeGo]
        exact ha
      | n :: ns2 =>
        rw [explodeGo]
        apply ih.1 ns2 _ (by simp at hsz; omega)
        apply insertExploded_settled _ _ ha
        exact ih.2.2.2 n (by simp at hsz; omega)
    · intro ns acc hsz hs
      match ns with
      | [] =>
        rw [explodeGo]
        simp
      | n :: ns2 =>
        rw [explodeGo]
        rw [settledL] at hs
        simp at hs
        rw [ih.2.2.1 n (by simp at hsz; omega) hs.1]
        rw [insertExploded_id _ _ hs.1]
        rw [ih.2.1 ns2 _ (by simp at hsz; omega) hs.2]
        simp
    · intro n hsz hn
      match n with
      | .root cs =>
        rw [explodeNode, explodeList]
        rw [settledN] at hn
        rw [ih.2.1 cs [] (by simp at hsz; omega) hn]
        simp
      | .sec p cs =>
        rw [explodeNode, explodeList]
        rw [settledN] at hn
        simp at hn
        rw [ih.2.1 cs [] (by simp at hsz; omega) hn.2]
        simp
      | .field p k v =>
        rw [explodeNode] <;> (intros; rename_i hx; exact HNode.noConfusion hx)
      | .comment t b =>
        rw [explodeNode] <;> (intros; rename_i hx; exact HNode.noConfusion hx)
    · intro n hsz
      match n with
      | .root cs =>
        rw [explodeNode, explodeList]
        simp only [HNode.children]
        exact ih.1 cs [] (by simp at hsz; omega) (by rw [settledL])
      | .sec p cs =>
        rw [explodeNode, explodeList]
        simp only [HNode.children]
        exact ih.1 cs [] (by simp at hsz; omega) (by rw [settledL])
      | .field p k v =>
        rw [explodeNode]
        · simp [HNode.children, settledL]
        · intros
          rename_i hx
          exact HNode.noConfusion hx
        · intros
          rename_i hx
          exact HNode.noConfusion hx
      | .comment t b =>
        rw [explodeNode]
        · simp [HNode.children, settledL]
        · intros
          rename_i hx
          exact HNode.noConfusion hx
        · intros
          rename_i hx
          exact HNode.noConfusion hx

/-- Slash-free trees are settled. -/
theorem slashFree_settled (N : Nat) :
    (∀ n, sizeOf n ≤ N → slashFreeN n = true → settledN n = true) ∧
    (∀ ns, sizeOf ns ≤ N → slashFreeL ns = true → settledL ns = true) := by
  induction N with
  | zero =>
    constructor
    · intro n hsz
      cases n <;> simp at hsz
    · intro ns hsz
      cases ns <;> simp at hsz
  | succ N ih =>
    constructor
    · intro n hsz hf
      match n with
      | .root cs =>
        rw [slashFreeN] at hf
        rw [settledN]
        exact ih.2 cs (by simp at hsz; omega) hf
      | .sec nm cs =>
        rw [slashFreeN] at hf
        rw [settledN]
        simp at hf ⊢
        refine ⟨?_, ih.2 cs (by simp at hsz; omega) hf.2⟩
        have := settledName_of_no_slash nm (by simp [hf.1])
        simpa [settledName] using this
      | .field nm k v =>
        rw [slashFreeN] at hf
        rw [settledN]
        have := settledName_of_no_slash nm (by simpa using hf)
        exact this
      | .comment t b => rw [settledN]
    · intro ns hsz hf
      match ns with
      | [] => rw [settledL]
      | c :: cs =>
        rw [slashFreeL] at hf
        rw [settledL]
        simp at hf ⊢
        exact ⟨ih.1 c (by simp at hsz; omega) hf.1,
               ih.2 cs (by simp at hsz; omega) hf.2⟩

/-- C5: explode is idempotent - exploding an already exploded tree is a
    no-op - and applying explode to a tree in which no field or section has
    a path separator in its own path segment leaves the tree unchanged. -/
theorem C5_explode_idempotent (t : HNode) :
    explode (explode t) = explode t ∧
    (slashFreeN t = true → explode t = t) := by
  constructor
  · have hset : settledL (HNode.children (explodeNode t)) = true :=
      (explode_master (sizeOf t)).2.2.2 t (Nat.le_refl _)
    rw [explode, explode]
    cases ht : explodeNode t with
    | root cs =>
      rw [explodeNode, explodeList]
      rw [ht] at hset
      simp only [HNode.children] at hset
      rw [(explode_master (sizeOf cs)).2.1 cs [] (Nat.le_refl _) hset]
      simp
    | sec p cs =>
      rw [explodeNode, explodeList]
      rw [ht] at hset
      simp only [HNode.children] at hset
      rw [(explode_master (sizeOf cs)).2.1 cs [] (Nat.le_refl _) hset]
      simp
    | field p k v =>
      rw [explodeNode] <;> (intros; rename_i hx; exact HNode.noConfusion hx)
    | comment c b =>
      rw [explodeNode] <;> (intros; rename_i hx; exact HNode.noConfusion hx)
  · intro hf
    rw [explode]
    exact (explode_master (sizeOf t)).2.2.1 t (Nat.le_refl _)
      ((slashFree_settled (sizeOf t)).1 t (Nat.le_refl _) hf)

/-! Claim C6 helper lemmas. -/

/-- findIn with no segments finds nothing. -/
theorem findIn_nil : ∀ cs : List HNode, findIn cs [] = Option.none := by
  intro cs
  cases cs with
  | nil => rw [findIn]
  | cons c cs => rw [findIn]

/-- lookupName skips nodes without a name. -/
theorem lookupName_cons_other (c : HNode) (cs : List HNode) (s : Str)
    (hc : nodeName c = Option.none) : lookupName (c :: cs) s = lookupName cs s := by
  match c with
  | .root kids =>
    rw [lookupName]
    · intros
      rename_i hx
      exact HNode.noConfusion hx
    · intros
      rename_i hx
      exact HNode.noConfusion hx
  | .comment t b =>
    rw [lookupName]
    · intros
      rename_i hx
      exact HNode.noConfusion hx
    · intros
      rename_i hx
      exact HNode.noConfusion hx
  | .sec nm kids => rw [nodeName] at hc; exact Option.noConfusion hc
  | .field nm k v => rw [nodeName] at hc; exact Option.noConfusion hc

/-- findIn skips nodes without a name. -/
theorem findIn_cons_other (c : HNode) (cs : List HNode) (s : Str) (rest : List Str)
    (hc : nodeName c = Option.none) :
    findIn (c :: cs) (s :: rest) = findIn cs (s :: rest) := by
  match c with
  | .root kids =>
    rw [findIn]
    · intros
      rename_i hx
      exact HNode.noConfusion hx
    · intros
      rename_i hx
      exact HNode.noConfusion hx
  | .comment t b =>
    rw [findIn]
    · intros
      rename_i hx
      exact HNode.noConfusion hx
    · intros
      rename_i hx
      exact HNode.noConfusion hx
  | .sec nm kids => rw [nodeName] at hc; exact Option.noConfusion hc
  | .field nm k v => rw [nodeName] at hc; exact Option.noConfusion hc

/-- A successful lookupName returns a node named by the key. -/
theorem lookupName_name :
    ∀ cs s x, lookupName cs s = some x → nodeName x = some s := by
  intro cs
  induction cs with
  | nil =>
    intro s x h
    rw [lookupName] at h
    exact Option.noConfusion h
  | cons c cs ih =>
    intro s x h
    match c with
    | .sec nm kids =>
      rw [lookupName] at h
      by_cases hnm : nm = s
      · rw [if_pos hnm] at h
        simp at h
        subst h
        simp [nodeName, hnm]
      · rw [if_neg hnm] at h
        exact ih s x h
    | .field nm k v =>
      rw [lookupName] at h
      by_cases hnm : nm = s
      · rw [if_pos hnm] at h
        simp at h
        subst h
        simp [nodeName, hnm]
      · rw [if_neg hnm] at h
        exact ih s x h
    | .root kids =>
      rw [lookupName_cons_other _ _ _ (by rw [nodeName])] at h
      exact ih s x h
    | .comment t b =>
      rw [lookupName_cons_other _ _ _ (by rw [nodeName])] at h
      exact ih s x h

/-- A successful lookupName returns a member of the list. -/
theorem lookupName_mem :
    ∀ cs s x, lookupName cs s = some x → x ∈ cs := by
  intro cs
  induction cs with
  | nil =>
    intro s x h
    rw [lookupName] at h
    exact Option.noConfusion h
  | cons c cs ih =>
    intro s x h
    match c with
    | .sec nm kids =>
      rw [lookupName] at h
      by_cases hnm : nm = s
      · rw [if_pos hnm] at h
        simp at h
        subst h
        simp
      · rw [if_neg hnm] at h
        simp [ih s x h]
    | .field nm k v =>
      rw [lookupName] at h
      by_cases hnm : nm = s
      · rw [if_pos hnm] at h
        simp at h
        subst h
        simp
      · rw [if_neg hnm] at h
        simp [ih s x h]
    | .root kids =>
      rw [lookupName_cons_other _ _ _ (by rw [nodeName])] at h
      simp [ih s x h]
    | .comment t b =>
      rw [lookupName_cons_other _ _ _ (by rw [nodeName])] at h
      simp [ih s x h]

/-- lookupName misses exactly the names outside sibNames. -/
theorem lookupName_none_iff :
    ∀ cs s, lookupName cs s = Option.none ↔ s ∉ sibNames cs := by
  intro cs
  induction cs with
  | nil =>
    intro s
    rw [lookupName]
    simp [sibNames]
  | cons c cs ih =>
    intro s
    match c with
    | .sec nm kids =>
      rw [lookupName]
      have hsib : sibNames (HNode.sec nm kids :: cs) = nm :: sibNames cs := by
        simp [sibNames, nodeName]
      rw [hsib]
      by_cases hnm : nm = s
      · rw [if_pos hnm]
        subst hnm
        simp
      · rw [if_neg hnm]
        rw [ih s]
        constructor
        · intro h hc
          rcases List.mem_cons.mp hc with hh | hh
          · exact hnm hh.symm
          · exact h hh
        · intro h hh
          exact h (List.mem_cons_of_mem _ hh)
    | .field nm k v =>
      rw [lookupName]
      have hsib : sibNames (HNode.field nm k v :: cs) = nm :: sibNames cs := by
        simp [sibNames, nodeName]
      rw [hsib]
      by_cases hnm : nm = s
      · rw [if_pos hnm]
        subst hnm
        simp
      · rw [if_neg hnm]
        rw [ih s]
        constructor
        · intro h hc
          rcases List.mem_cons.mp hc with hh | hh
          · exact hnm hh.symm
          · exact h hh
        · intro h hh
          exact h (List.mem_cons_of_mem _ hh)
    | .root kids =>
      rw [lookupName_cons_other _ _ _ (by rw [nodeName])]
      rw [ih s]
      have hsib : sibNames (HNode.root kids :: cs) = sibNames cs := by
        simp [sibNames, nodeName]
      rw [hsib]
    | .comment t b =>
      rw [lookupName_cons_other _ _ _ (by rw [nodeName])]
      rw [ih s]
      have hsib : sibNames (HNode.comment t b :: cs) = sibNames cs := by
        simp [sibNames, nodeName]
      rw [hsib]

/-- Unfolding of findIn at a section head. -/
theorem findIn_cons_sec (nm : Str) (kids cs : List HNode) (s : Str) (rest : List Str) :
    findIn (.sec nm kids :: cs) (s :: rest) =
      if nm = s then
        match rest with
        | [] => some (.sec nm kids)
        | _ :: _ =>
          match findIn kids rest with
          | some r => some r
          | Option.none => findIn cs (s :: rest)
      else findIn cs (s :: rest) := by
  rw [findIn.eq_def]

/-- Unfolding of findIn at a field head. -/
theorem findIn_cons_field (nm : Str) (k : Kind) (v : Str) (cs : List HNode)
    (s : Str) (rest : List Str) :
    findIn (.field nm k v :: cs) (s :: rest) =
      if nm = s then
        match rest with
        | [] => some (.field nm k v)
        | _ :: _ => findIn cs (s :: rest)
      else findIn cs (s :: rest) := by
  rw [findIn.eq_def]

/-- findIn finds nothing along a head segment outside the sibling names. -/
theorem findIn_none_of_lookup_none :
    ∀ cs s rest, lookupName cs s = Option.none →
      findIn cs (s :: rest) = Option.none := by
  intro cs
  induction cs with
  | nil =>
    intro s rest h
    rw [findIn]
  | cons c cs ih =>
    intro s rest h
    match c with
    | .sec nm kids =>
      rw [lookupName] at h
      rw [findIn_cons_sec]
      by_cases hnm : nm = s
      · rw [if_pos hnm] at h
        exact Option.noConfusion h
      · rw [if_neg hnm] at h
        rw [if_neg hnm]
        exact ih s rest h
    | .field nm k v =>
      rw [lookupName] at h
      rw [findIn_cons_field]
      by_cases hnm : nm = s
      · rw [if_pos hnm] at h
        exact Option.noConfusion h
      · rw [if_neg hnm] at h
        rw [if_neg hnm]
        exact ih s rest h
    | .root kids =>
      rw [lookupName_cons_other _ _ _ (by rw [nodeName])] at h
      rw [findIn_cons_other _ _ _ _ (by rw [nodeName])]
      exact ih s rest h
    | .comment t b =>
      rw [lookupName_cons_other _ _ _ (by rw [nodeName])] at h
      rw [findIn_cons_other _ _ _ _ (by rw [nodeName])]
      exact ih s rest h

/-- Under unique sibling names, findIn along one leading segment is fully
    determined by lookupName: the unique match is the result (descending
    into it when the path continues), and a failed descent cannot be
    rescued by later siblings. -/
theorem findIn_eq_lookup :
    ∀ cs s rest, (sibNames cs).Nodup →
      findIn cs (s :: rest) =
        (match lookupName cs s, rest with
         | Option.none, _ => Option.none
         | some (.field nm k v), [] => some (.field nm k v)
         | some (.field _ _ _), _ :: _ => Option.none
         | some (.sec nm kids), [] => some (.sec nm kids)
         | some (.sec _ kids), _ :: _ => findIn kids rest
         | some _, _ => Option.none) := by
  intro cs
  induction cs with
  | nil =>
    intro s rest hu
    rw [findIn, lookupName]
  | cons c cs ih =>
    intro s rest hu
    match c with
    | .sec nm kids =>
      have hsib : sibNames (HNode.sec nm kids :: cs) = nm :: sibNames cs := by
        simp [sibNames, nodeName]
      rw [hsib] at hu
      rw [findIn_cons_sec, lookupName]
      by_cases hnm : nm = s
      · rw [if_pos hnm, if_pos hnm]
        match rest with
        | [] => rfl
        | r :: rs =>
          have htail : findIn cs (s :: r :: rs) = Option.none := by
            apply findIn_none_of_lookup_none
            rw [lookupName_none_iff]
            rw [← hnm]
            exact (List.nodup_cons.mp hu).1
          rw [htail]
          cases hk : findIn kids (r :: rs) <;> exact hk.symm
      · rw [if_neg hnm, if_neg hnm]
        exact ih s rest (List.nodup_cons.mp hu).2
    | .field nm k v =>
      have hsib : sibNames (HNode.field nm k v :: cs) = nm :: sibNames cs := by
        simp [sibNames, nodeName]
      rw [hsib] at hu
      rw [findIn_cons_field, lookupName]
      by_cases hnm : nm = s
      · rw [if_pos hnm, if_pos hnm]
        match rest with
        | [] => rfl
        | r :: rs =>
          apply findIn_none_of_lookup_none
          rw [lookupName_none_iff]
          rw [← hnm]
          exact (List.nodup_cons.mp hu).1
      · rw [if_neg hnm, if_neg hnm]
        exact ih s rest (List.nodup_cons.mp hu).2
    | .root kids =>
      have hsib : sibNames (HNode.root kids :: cs) = sibNames cs := by
        simp [sibNames, nodeName]
      rw [hsib] at hu
      rw [findIn_cons_other _ _ _ _ (by rw [nodeName]),
          lookupName_cons_other _ _ _ (by rw [nodeName])]
      exact ih s rest hu
    | .comment t b =>
      have hsib : sibNames (HNode.comment t b :: cs) = sibNames cs := by
        simp [sibNames, nodeName]
      rw [hsib] at hu
      rw [findIn_cons_other _ _ _ _ (by rw [nodeName]),
          lookupName_cons_other _ _ _ (by rw [nodeName])]
      exact ih s rest hu

/-- mergeOne ignores comments. -/
theorem mergeOne_comment (cs : List HNode) (t : Str) (b : Bool) :
    mergeOne cs (.comment t b) = cs := by
  cases cs <;> rw [mergeOne.eq_def]

/-- mergeOne ignores stray root nodes. -/
theorem mergeOne_root (cs ks : List HNode) :
    mergeOne cs (.root ks) = cs := by
  cases cs <;> rw [mergeOne.eq_def]

/-- mergeOne appends an unmatched field to an empty list. -/
theorem mergeOne_nil_field (nm : Str) (k : Kind) (v : Str) :
    mergeOne [] (.field nm k v) = [.field nm k v] := by
  rw [mergeOne.eq_def]

/-- mergeOne appends an unmatched section to an empty list. -/
theorem mergeOne_nil_sec (nm : Str) (kids : List HNode) :
    mergeOne [] (.sec nm kids) = [.sec nm kids] := by
  rw [mergeOne.eq_def]

/-- mergeOne of a field against a section head: overwrite is skipped on a
    name match of the wrong variant. -/
theorem mergeOne_field_sec (nm' : Str) (kids' : List HNode) (cs : List HNode)
    (nm : Str) (k : Kind) (v : Str) :
    mergeOne (.sec nm' kids' :: cs) (.field nm k v) =
      if nm' = nm then .sec nm' kids' :: cs
      else .sec nm' kids' :: mergeOne cs (.field nm k v) := by
  rw [mergeOne.eq_def]

/-- mergeOne of a field against a field head: a name match overwrites the
    value and kind in place. -/
theorem mergeOne_field_field (nm' : Str) (k' : Kind) (v' : Str) (cs : List HNode)
    (nm : Str) (k : Kind) (v : Str) :
    mergeOne (.field nm' k' v' :: cs) (.field nm k v) =
      if nm' = nm then .field nm' k v :: cs
      else .field nm' k' v' :: mergeOne cs (.field nm k v) := by
  rw [mergeOne.eq_def]

/-- mergeOne of a section against a section head: a name match merges
    recursively in place. -/
theorem mergeOne_sec_sec (nm' : Str) (kids' : List HNode) (cs : List HNode)
    (nm : Str) (kids : List HNode) :
    mergeOne (.sec nm' kids' :: cs) (.sec nm kids) =
      if nm' = nm then .sec nm' (mergeList kids kids') :: cs
      else .sec nm' kids' :: mergeOne cs (.sec nm kids) := by
  rw [mergeOne.eq_def]

/-- mergeOne of a section against a field head: skipped on a name match of
    the wrong variant. -/
theorem mergeOne_sec_field (nm' : Str) (k' : Kind) (v' : Str) (cs : List HNode)
    (nm : Str) (kids : List HNode) :
    mergeOne (.field nm' k' v' :: cs) (.sec nm kids) =
      if nm' = nm then .field nm' k' v' :: cs
      else .field nm' k' v' :: mergeOne cs (.sec nm kids) := by
  rw [mergeOne.eq_def]

/-- mergeOne walks past heads that carry no name. -/
theorem mergeOne_cons_other (c : HNode) (cs : List HNode) (f : HNode)
    (hc : nodeName c = Option.none) :
    mergeOne (c :: cs) f = c :: mergeOne cs f := by
  match f with
  | .comment t b => rw [mergeOne_comment, mergeOne_comment]
  | .root ks => rw [mergeOne_root, mergeOne_root]
  | .field nm k v =>
    match c with
    | .root ks =>
      rw [mergeOne.eq_def]
    | .comment t b =>
      rw [mergeOne.eq_def]
    | .sec nm' kids' => rw [nodeName] at hc; exact Option.noConfusion hc
    | .field nm' k' v' => rw [nodeName] at hc; exact Option.noConfusion hc
  | .sec nm kids =>
    match c with
    | .root ks =>
      rw [mergeOne.eq_def]
    | .comment t b =>
      rw [mergeOne.eq_def]
    | .sec nm' kids' => rw [nodeName] at hc; exact Option.noConfusion hc
    | .field nm' k' v' => rw [nodeName] at hc; exact Option.noConfusion hc

/-- What mergeOne leaves at the position of the first name match: a field
    from-node overwrites a matched field's kind and value, a section
    from-node merges recursively into a matched section, and a match of the
    other variant is left alone. -/
def replaceNode : HNode → HNode → HNode
  | .field nm' _ _, .field _ k v => .field nm' k v
  | .field nm' k' v', .sec _ _ => .field nm' k' v'
  | .sec nm' kids', .field _ _ _ => .sec nm' kids'
  | .sec nm' kids', .sec _ kids => .sec nm' (mergeList kids kids')
  | x, _ => x

/-- replaceNode keeps the name of the node it replaces. -/
theorem nodeName_replaceNode (x f : HNode) :
    nodeName (replaceNode x f) = nodeName x := by
  match x, f with
  | .field nm' k' v', .field nm k v => rw [replaceNode, nodeName, nodeName]
  | .field nm' k' v', .sec nm kids => rw [replaceNode]
  | .sec nm' kids', .field nm k v => rw [replaceNode]
  | .sec nm' kids', .sec nm kids => rw [replaceNode, nodeName, nodeName]
  | .field nm' k' v', .root ks =>
    rw [replaceNode] <;>
      (intros; rename_i hx hy;
       first
       | exact HNode.noConfusion hx
       | exact HNode.noConfusion hy)
  | .field nm' k' v', .comment t b =>
    rw [replaceNode] <;>
      (intros; rename_i hx hy;
       first
       | exact HNode.noConfusion hx
       | exact HNode.noConfusion hy)
  | .sec nm' kids', .root ks =>
    rw [replaceNode] <;>
      (intros; rename_i hx hy;
       first
       | exact HNode.noConfusion hx
       | exact HNode.noConfusion hy)
  | .sec nm' kids', .comment t b =>
    rw [replaceNode] <;>
      (intros; rename_i hx hy;
       first
       | exact HNode.noConfusion hx
       | exact HNode.noConfusion hy)
  | .root ks, f =>
    rw [replaceNode] <;>
      (intros; rename_i hx hy;
       first
       | exact HNode.noConfusion hx
       | exact HNode.noConfusion hy)
  | .comment t b, f =>
    rw [replaceNode] <;>
      (intros; rename_i hx hy;
       first
       | exact HNode.noConfusion hx
       | exact HNode.noConfusion hy)

/-- sibNames distributes over append. -/
theorem sibNames_append (as bs : List HNode) :
    sibNames (as ++ bs) = sibNames as ++ sibNames bs := by
  simp [sibNames]

/-- lookupName on an append falls through to the right list exactly when the
    left list misses. -/
theorem lookupName_append :
    ∀ as bs s, lookupName (as ++ bs) s =
      (match lookupName as s with
       | some x => some x
       | Option.none => lookupName bs s) := by
  intro as
  induction as with
  | nil =>
    intro bs s
    rw [List.nil_append, lookupName]
  | cons c cs ih =>
    intro bs s
    match c with
    | .sec nm kids =>
      rw [List.cons_append, lookupName, lookupName]
      by_cases hnm : nm = s
      · rw [if_pos hnm, if_pos hnm]
      · rw [if_neg hnm, if_neg hnm]
        exact ih bs s
    | .field nm k v =>
      rw [List.cons_append, lookupName, lookupName]
      by_cases hnm : nm = s
      · rw [if_pos hnm, if_pos hnm]
      · rw [if_neg hnm, if_neg hnm]
        exact ih bs s
    | .root ks =>
      rw [List.cons_append, lookupName_cons_other _ _ _ (by rw [nodeName]),
          lookupName_cons_other _ _ _ (by rw [nodeName])]
      exact ih bs s
    | .comment t b =>
      rw [List.cons_append, lookupName_cons_other _ _ _ (by rw [nodeName]),
          lookupName_cons_other _ _ _ (by rw [nodeName])]
      exact ih bs s

/-- mergeOne leaves the list unchanged for a from-node without a name. -/
theorem mergeOne_unnamed (ik : List HNode) (f : HNode)
    (hf : nodeName f = Option.none) : mergeOne ik f = ik := by
  match f with
  | .comment t b => exact mergeOne_comment ik t b
  | .root ks => exact mergeOne_root ik ks
  | .sec nm kids => rw [nodeName] at hf; exact Option.noConfusion hf
  | .field nm k v => rw [nodeName] at hf; exact Option.noConfusion hf

/-- With no name match, mergeOne appends the from-node at the end. -/
theorem mergeOne_append_of_none :
    ∀ ik f nm, nodeName f = some nm → lookupName ik nm = Option.none →
      mergeOne ik f = ik ++ [f] := by
  intro ik
  induction ik with
  | nil =>
    intro f nm hf hl
    match f with
    | .field n k v => rw [mergeOne_nil_field, List.nil_append]
    | .sec n kids => rw [mergeOne_nil_sec, List.nil_append]
    | .root ks => rw [nodeName] at hf; exact Option.noConfusion hf
    | .comment t b => rw [nodeName] at hf; exact Option.noConfusion hf
  | cons c cs ih =>
    intro f nm hf hl
    match f with
    | .field n k v =>
      have hn : n = nm := by rw [nodeName] at hf; exact Option.some.inj hf
      subst hn
      match c with
      | .sec nm' kids' =>
        rw [lookupName] at hl
        by_cases h' : nm' = n
        · rw [if_pos h'] at hl; exact Option.noConfusion hl
        · rw [if_neg h'] at hl
          rw [mergeOne_field_sec, if_neg h', ih (.field n k v) n (by rw [nodeName]) hl,
              List.cons_append]
      | .field nm' k' v' =>
        rw [lookupName] at hl
        by_cases h' : nm' = n
        · rw [if_pos h'] at hl; exact Option.noConfusion hl
        · rw [if_neg h'] at hl
          rw [mergeOne_field_field, if_neg h', ih (.field n k v) n (by rw [nodeName]) hl,
              List.cons_append]
      | .root ks =>
        rw [lookupName_cons_other _ _ _ (by rw [nodeName])] at hl
        rw [mergeOne_cons_other _ _ _ (by rw [nodeName]),
            ih (.field n k v) n (by rw [nodeName]) hl, List.cons_append]
      | .comment t b =>
        rw [lookupName_cons_other _ _ _ (by rw [nodeName])] at hl
        rw [mergeOne_cons_other _ _ _ (by rw [nodeName]),
            ih (.field n k v) n (by rw [nodeName]) hl, List.cons_append]
    | .sec n kids =>
      have hn : n = nm := by rw [nodeName] at hf; exact Option.some.inj hf
      subst hn
      match c with
      | .sec nm' kids' =>
        rw [lookupName] at hl
        by_cases h' : nm' = n
        · rw [if_pos h'] at hl; exact Option.noConfusion hl
        · rw [if_neg h'] at hl
          rw [mergeOne_sec_sec, if_neg h', ih (.sec n kids) n (by rw [nodeName]) hl,
              List.cons_append]
      | .field nm' k' v' =>
        rw [lookupName] at hl
        by_cases h' : nm' = n
        · rw [if_pos h'] at hl; exact Option.noConfusion hl
        · rw [if_neg h'] at hl
          rw [mergeOne_sec_field, if_neg h', ih (.sec n kids) n (by rw [nodeName]) hl,
              List.cons_append]
      | .root ks =>
        rw [lookupName_cons_other _ _ _ (by rw [nodeName])] at hl
        rw [mergeOne_cons_other _ _ _ (by rw [nodeName]),
            ih (.sec n kids) n (by rw [nodeName]) hl, List.cons_append]
      | .comment t b =>
        rw [lookupName_cons_other _ _ _ (by rw [nodeName])] at hl
        rw [mergeOne_cons_other _ _ _ (by rw [nodeName]),
            ih (.sec n kids) n (by rw [nodeName]) hl, List.cons_append]
    | .root ks => rw [nodeName] at hf; exact Option.noConfusion hf
    | .comment t b => rw [nodeName] at hf; exact Option.noConfusion hf

/-- On a name match, mergeOne rewrites exactly the first matched node, to
    replaceNode of it, leaving everything else in place. -/
theorem mergeOne_found :
    ∀ ik f nm x, nodeName f = some nm → lookupName ik nm = some x →
      ∃ pre post, ik = pre ++ x :: post ∧ lookupName pre nm = Option.none ∧
        mergeOne ik f = pre ++ replaceNode x f :: post := by
  intro ik
  induction ik with
  | nil =>
    intro f nm x hf hl
    rw [lookupName] at hl
    exact Option.noConfusion hl
  | cons c cs ih =>
    intro f nm x hf hl
    match f with
    | .field n k v =>
      have hn : n = nm := by rw [nodeName] at hf; exact Option.some.inj hf
      subst hn
      match c with
      | .sec nm' kids' =>
        rw [lookupName] at hl
        by_cases h' : nm' = n
        · rw [if_pos h'] at hl
          have hx : x = .sec nm' kids' := (Option.some.inj hl).symm
          subst hx
          refine ⟨[], cs, rfl, by rw [lookupName], ?_⟩
          rw [mergeOne_field_sec, if_pos h', List.nil_append, replaceNode]
        · rw [if_neg h'] at hl
          obtain ⟨pre, post, hik, hpre, hm⟩ := ih (.field n k v) n _ (by rw [nodeName]) hl
          refine ⟨.sec nm' kids' :: pre, post, by rw [hik, List.cons_append], ?_, ?_⟩
          · rw [lookupName, if_neg h']
            exact hpre
          · rw [mergeOne_field_sec, if_neg h', hm, List.cons_append]
      | .field nm' k' v' =>
        rw [lookupName] at hl
        by_cases h' : nm' = n
        · rw [if_pos h'] at hl
          have hx : x = .field nm' k' v' := (Option.some.inj hl).symm
          subst hx
          refine ⟨[], cs, rfl, by rw [lookupName], ?_⟩
          rw [mergeOne_field_field, if_pos h', List.nil_append, replaceNode]
        · rw [if_neg h'] at hl
          obtain ⟨pre, post, hik, hpre, hm⟩ := ih (.field n k v) n _ (by rw [nodeName]) hl
          refine ⟨.field nm' k' v' :: pre, post, by rw [hik, List.cons_append], ?_, ?_⟩
          · rw [lookupName, if_neg h']
            exact hpre
          · rw [mergeOne_field_field, if_neg h', hm, List.cons_append]
      | .root ks =>
        rw [lookupName_cons_other _ _ _ (by rw [nodeName])] at hl
        obtain ⟨pre, post, hik, hpre, hm⟩ := ih (.field n k v) n _ (by rw [nodeName]) hl
        refine ⟨.root ks :: pre, post, by rw [hik, List.cons_append], ?_, ?_⟩
        · rw [lookupName_cons_other _ _ _ (by rw [nodeName])]
          exact hpre
        · rw [mergeOne_cons_other _ _ _ (by rw [nodeName]), hm, List.cons_append]
      | .comment t b =>
        rw [lookupName_cons_other _ _ _ (by rw [nodeName])] at hl
        obtain ⟨pre, post, hik, hpre, hm⟩ := ih (.field n k v) n _ (by rw [nodeName]) hl
        refine ⟨.comment t b :: pre, post, by rw [hik, List.cons_append], ?_, ?_⟩
        · rw [lookupName_cons_other _ _ _ (by rw [nodeName])]
          exact hpre
        · rw [mergeOne_cons_other _ _ _ (by rw [nodeName]), hm, List.cons_append]
    | .sec n kids =>
      have hn : n = nm := by rw [nodeName] at hf; exact Option.some.inj hf
      subst hn
      match c with
      | .sec nm' kids' =>
        rw [lookupName] at hl
        by_cases h' : nm' = n
        · rw [if_pos h'] at hl
          have hx : x = .sec nm' kids' := (Option.some.inj hl).symm
          subst hx
          refine ⟨[], cs, rfl, by rw [lookupName], ?_⟩
          rw [mergeOne_sec_sec, if_pos h', List.nil_append, replaceNode]
        · rw [if_neg h'] at hl
          obtain ⟨pre, post, hik, hpre, hm⟩ := ih (.sec n kids) n _ (by rw [nodeName]) hl
          refine ⟨.sec nm' kids' :: pre, post, by rw [hik, List.cons_append], ?_, ?_⟩
          · rw [lookupName, if_neg h']
            exact hpre
          · rw [mergeOne_sec_sec, if_neg h', hm, List.cons_append]
      | .field nm' k' v' =>
        rw [lookupName] at hl
        by_cases h' : nm' = n
        · rw [if_pos h'] at hl
          have hx : x = .field nm' k' v' := (Option.some.inj hl).symm
          subst hx
          refine ⟨[], cs, rfl, by rw [lookupName], ?_⟩
          rw [mergeOne_sec_field, if_pos h', List.nil_append, replaceNode]
        · rw [if_neg h'] at hl
          obtain ⟨pre, post, hik, hpre, hm⟩ := ih (.sec n kids) n _ (by rw [nodeName]) hl
          refine ⟨.field nm' k' v' :: pre, post, by rw [hik, List.cons_append], ?_, ?_⟩
          · rw [lookupName, if_neg h']
            exact hpre
          · rw [mergeOne_sec_field, if_neg h', hm, List.cons_append]
      | .root ks =>
        rw [lookupName_cons_other _ _ _ (by rw [nodeName])] at hl
        obtain ⟨pre, post, hik, hpre, hm⟩ := ih (.sec n kids) n _ (by rw [nodeName]) hl
        refine ⟨.root ks :: pre, post, by rw [hik, List.cons_append], ?_, ?_⟩
        · rw [lookupName_cons_other _ _ _ (by rw [nodeName])]
          exact hpre
        · rw [mergeOne_cons_other _ _ _ (by rw [nodeName]), hm, List.cons_append]
      | .comment t b =>
        rw [lookupName_cons_other _ _ _ (by rw [nodeName])] at hl
        obtain ⟨pre, post, hik, hpre, hm⟩ := ih (.sec n kids) n _ (by rw [nodeName]) hl
        refine ⟨.comment t b :: pre, post, by rw [hik, List.cons_append], ?_, ?_⟩
        · rw [lookupName_cons_other _ _ _ (by rw [nodeName])]
          exact hpre
        · rw [mergeOne_cons_other _ _ _ (by rw [nodeName]), hm, List.cons_append]
    | .root ks => rw [nodeName] at hf; exact Option.noConfusion hf
    | .comment t b => rw [nodeName] at hf; exact Option.noConfusion hf

/-- mergeList unfolding: empty from list. -/
theorem mergeList_nil (ik : List HNode) : mergeList [] ik = ik := by
  rw [mergeList]

/-- mergeList unfolding: one from-child at a time, left to right. -/
theorem mergeList_cons (f : HNode) (fs ik : List HNode) :
    mergeList (f :: fs) ik = mergeList fs (mergeOne ik f) := by
  rw [mergeList]

/-- lookupName hits a head node bearing the looked-up name. -/
theorem lookupName_cons_self (c : HNode) (cs : List HNode) (s : Str)
    (hc : nodeName c = some s) : lookupName (c :: cs) s = some c := by
  match c with
  | .sec nm kids =>
    rw [nodeName] at hc
    rw [lookupName, if_pos (Option.some.inj hc)]
  | .field nm k v =>
    rw [nodeName] at hc
    rw [lookupName, if_pos (Option.some.inj hc)]
  | .root ks => rw [nodeName] at hc; exact Option.noConfusion hc
  | .comment t b => rw [nodeName] at hc; exact Option.noConfusion hc

/-- lookupName walks past a head node bearing a different name. -/
theorem lookupName_cons_ne (c : HNode) (cs : List HNode) (s nm : Str)
    (hc : nodeName c = some nm) (h : nm ≠ s) :
    lookupName (c :: cs) s = lookupName cs s := by
  match c with
  | .sec n kids =>
    rw [nodeName] at hc
    rw [lookupName, if_neg (fun he => h ((Option.some.inj hc) ▸ he))]
  | .field n k v =>
    rw [nodeName] at hc
    rw [lookupName, if_neg (fun he => h ((Option.some.inj hc) ▸ he))]
  | .root ks => rw [nodeName] at hc; exact Option.noConfusion hc
  | .comment t b => rw [nodeName] at hc; exact Option.noConfusion hc

/-- mergeOne never changes the lookup at a name other than the from-node's. -/
theorem lookupName_mergeOne_ne (ik : List HNode) (f : HNode) (s : Str)
    (h : nodeName f ≠ some s) :
    lookupName (mergeOne ik f) s = lookupName ik s := by
  cases hf : nodeName f with
  | none => rw [mergeOne_unnamed ik f hf]
  | some nm =>
    have hns : nm ≠ s := fun he => h (he ▸ hf)
    cases hl : lookupName ik nm with
    | none =>
      rw [mergeOne_append_of_none ik f nm hf hl, lookupName_append]
      cases hik : lookupName ik s with
      | some x => rfl
      | none =>
        show lookupName (f :: []) s = Option.none
        rw [lookupName_cons_ne f [] s nm hf hns, lookupName]
    | some x =>
      obtain ⟨pre, post, hik, hpre, hm⟩ := mergeOne_found ik f nm x hf hl
      rw [hm, hik, lookupName_append, lookupName_append]
      cases hp : lookupName pre s with
      | some y => rfl
      | none =>
        show lookupName (replaceNode x f :: post) s = lookupName (x :: post) s
        rw [lookupName_cons_ne _ post s nm
              (by rw [nodeName_replaceNode]; exact lookupName_name ik nm x (hik ▸ hl))
              hns,
            lookupName_cons_ne x post s nm (lookupName_name ik nm x (hik ▸ hl)) hns]

/-- On a name match, the lookup at that name after mergeOne is the replaced
    node. -/
theorem lookupName_mergeOne_found (ik : List HNode) (f : HNode) (nm : Str)
    (x : HNode) (hf : nodeName f = some nm) (hl : lookupName ik nm = some x) :
    lookupName (mergeOne ik f) nm = some (replaceNode x f) := by
  obtain ⟨pre, post, hik, hpre, hm⟩ := mergeOne_found ik f nm x hf hl
  rw [hm, lookupName_append, hpre]
  show lookupName (replaceNode x f :: post) nm = some (replaceNode x f)
  exact lookupName_cons_self _ post nm
    (by rw [nodeName_replaceNode]; exact lookupName_name ik nm x (hik ▸ hl))

/-- On a name match, mergeOne keeps the sibling names unchanged. -/
theorem sibNames_mergeOne_found (ik : List HNode) (f : HNode) (nm : Str)
    (x : HNode) (hf : nodeName f = some nm) (hl : lookupName ik nm = some x) :
    sibNames (mergeOne ik f) = sibNames ik := by
  obtain ⟨pre, post, hik, hpre, hm⟩ := mergeOne_found ik f nm x hf hl
  rw [hm, hik, sibNames_append, sibNames_append]
  simp [sibNames, List.filterMap_cons, nodeName_replaceNode]

/-- mergeOne preserves uniqueness of the sibling names. -/
theorem nodup_sibNames_mergeOne (ik : List HNode) (f : HNode)
    (h : (sibNames ik).Nodup) : (sibNames (mergeOne ik f)).Nodup := by
  cases hf : nodeName f with
  | none => rw [mergeOne_unnamed ik f hf]; exact h
  | some nm =>
    cases hl : lookupName ik nm with
    | none =>
      rw [mergeOne_append_of_none ik f nm hf hl, sibNames_append]
      have hnm : nm ∉ sibNames ik := (lookupName_none_iff ik nm).mp hl
      have hf1 : sibNames [f] = [nm] := by simp [sibNames, List.filterMap_cons, hf]
      rw [hf1]
      refine List.Nodup.append h (List.nodup_singleton nm) ?_
      intro a ha hb
      rw [List.mem_singleton] at hb
      exact hnm (hb ▸ ha)
    | some x => rw [sibNames_mergeOne_found ik f nm x hf hl]; exact h

/-- mergeList preserves uniqueness of the into list's sibling names. -/
theorem nodup_sibNames_mergeList :
    ∀ fa ta, (sibNames ta).Nodup → (sibNames (mergeList fa ta)).Nodup := by
  intro fa
  induction fa with
  | nil =>
    intro ta h
    rw [mergeList_nil]
    exact h
  | cons f fs ih =>
    intro ta h
    rw [mergeList_cons]
    exact ih _ (nodup_sibNames_mergeOne ta f h)

/-- The lookup after a whole mergeList, as a function of the two lookups:
    a from-field overwrites value and kind of a matched into-field, keeps a
    matched into-section, and is appended when unmatched; a from-section
    merges recursively into a matched into-section, keeps a matched
    into-field, and is appended when unmatched.  Needs unique from sibling
    names so that at most one from-child touches the looked-up name. -/
theorem mergeList_lookup :
    ∀ fa ta s, (sibNames fa).Nodup →
      lookupName (mergeList fa ta) s =
        (match lookupName fa s, lookupName ta s with
         | Option.none, r => r
         | some (.field nm k v), Option.none => some (.field nm k v)
         | some (.field _ k v), some (.field nm' _ _) => some (.field nm' k v)
         | some (.field _ _ _), some (.sec nm' kids') => some (.sec nm' kids')
         | some (.sec nm kids), Option.none => some (.sec nm kids)
         | some (.sec _ kids), some (.sec nm' kids') =>
           some (.sec nm' (mergeList kids kids'))
         | some (.sec _ _), some (.field nm' k' v') => some (.field nm' k' v')
         | some _, r => r) := by
  intro fa
  induction fa with
  | nil =>
    intro ta s hu
    rw [mergeList_nil, lookupName]
  | cons f fs ih =>
    intro ta s hu
    rw [mergeList_cons]
    match f with
    | .root ks =>
      rw [mergeOne_unnamed ta _ (by rw [nodeName]),
          lookupName_cons_other _ fs s (by rw [nodeName])]
      have hsib : sibNames (HNode.root ks :: fs) = sibNames fs := by
        simp [sibNames, List.filterMap_cons, nodeName]
      rw [hsib] at hu
      exact ih ta s hu
    | .comment t b =>
      rw [mergeOne_unnamed ta _ (by rw [nodeName]),
          lookupName_cons_other _ fs s (by rw [nodeName])]
      have hsib : sibNames (HNode.comment t b :: fs) = sibNames fs := by
        simp [sibNames, List.filterMap_cons, nodeName]
      rw [hsib] at hu
      exact ih ta s hu
    | .field n k v =>
      have hsib : sibNames (HNode.field n k v :: fs) = n :: sibNames fs := by
        simp [sibNames, List.filterMap_cons, nodeName]
      rw [hsib] at hu
      by_cases hnm : n = s
      · subst hnm
        have hfs : lookupName fs n = Option.none :=
          (lookupName_none_iff fs n).mpr (List.nodup_cons.mp hu).1
        rw [ih (mergeOne ta (.field n k v)) n (List.nodup_cons.mp hu).2, hfs,
            lookupName, if_pos rfl]
        show lookupName (mergeOne ta (.field n k v)) n = _
        cases hta : lookupName ta n with
        | none =>
          rw [mergeOne_append_of_none ta (.field n k v) n (by rw [nodeName]) hta,
              lookupName_append, hta]
          show lookupName (HNode.field n k v :: []) n = _
          rw [lookupName_cons_self _ [] n (by rw [nodeName])]
        | some x =>
          have hxn := lookupName_name ta n x hta
          match x, hxn with
          | .field n' k' v', _ =>
            rw [lookupName_mergeOne_found ta (.field n k v) n (.field n' k' v')
                  (by rw [nodeName]) hta, replaceNode]
          | .sec n' kids', _ =>
            rw [lookupName_mergeOne_found ta (.field n k v) n (.sec n' kids')
                  (by rw [nodeName]) hta, replaceNode]
          | .root ks, hxn =>
            rw [nodeName] at hxn
            exact Option.noConfusion hxn
          | .comment t b, hxn =>
            rw [nodeName] at hxn
            exact Option.noConfusion hxn
      · rw [ih (mergeOne ta (.field n k v)) s (List.nodup_cons.mp hu).2,
            lookupName_mergeOne_ne ta (.field n k v) s
              (by rw [nodeName]; exact fun he => hnm (Option.some.inj he)),
            lookupName, if_neg hnm]
    | .sec n kids =>
      have hsib : sibNames (HNode.sec n kids :: fs) = n :: sibNames fs := by
        simp [sibNames, List.filterMap_cons, nodeName]
      rw [hsib] at hu
      by_cases hnm : n = s
      · subst hnm
        have hfs : lookupName fs n = Option.none :=
          (lookupName_none_iff fs n).mpr (List.nodup_cons.mp hu).1
        rw [ih (mergeOne ta (.sec n kids)) n (List.nodup_cons.mp hu).2, hfs,
            lookupName, if_pos rfl]
        show lookupName (mergeOne ta (.sec n kids)) n = _
        cases hta : lookupName ta n with
        | none =>
          rw [mergeOne_append_of_none ta (.sec n kids) n (by rw [nodeName]) hta,
              lookupName_append, hta]
          show lookupName (HNode.sec n kids :: []) n = _
          rw [lookupName_cons_self _ [] n (by rw [nodeName])]
        | some x =>
          have hxn := lookupName_name ta n x hta
          match x, hxn with
          | .field n' k' v', _ =>
            rw [lookupName_mergeOne_found ta (.sec n kids) n (.field n' k' v')
                  (by rw [nodeName]) hta, replaceNode]
          | .sec n' kids', _ =>
            rw [lookupName_mergeOne_found ta (.sec n kids) n (.sec n' kids')
                  (by rw [nodeName]) hta, replaceNode]
          | .root ks, hxn =>
            rw [nodeName] at hxn
            exact Option.noConfusion hxn
          | .comment t b, hxn =>
            rw [nodeName] at hxn
            exact Option.noConfusion hxn
      · rw [ih (mergeOne ta (.sec n kids)) s (List.nodup_cons.mp hu).2,
            lookupName_mergeOne_ne ta (.sec n kids) s
              (by rw [nodeName]; exact fun he => hnm (Option.some.inj he)),
            lookupName, if_neg hnm]

/-- Members of a deeply-unique list are deeply unique. -/
theorem uniqL_mem : ∀ cs c, uniqL cs = true → c ∈ cs → uniqN c = true := by
  intro cs
  induction cs with
  | nil =>
    intro c _ hc
    exact absurd hc (List.not_mem_nil c)
  | cons d ds ih =>
    intro c h hc
    rw [uniqL, Bool.and_eq_true] at h
    rcases List.mem_cons.mp hc with he | hm
    · rw [he]
      exact h.1
    · exact ih c h.2 hm

/-- Unpacking deep uniqueness at a section node. -/
theorem uniqN_sec_parts (nm : Str) (kids : List HNode)
    (h : uniqN (.sec nm kids) = true) :
    (sibNames kids).Nodup ∧ uniqL kids = true := by
  rw [uniqN, Bool.and_eq_true] at h
  exact ⟨of_decide_eq_true h.1, h.2⟩

/-- Members of a compatible from-list are each compatible with the into
    list. -/
theorem compatL_mem :
    ∀ as fb a, compatL as fb = true → a ∈ as → compat1 a fb = true := by
  intro as
  induction as with
  | nil =>
    intro fb a _ ha
    exact absurd ha (List.not_mem_nil a)
  | cons d ds ih =>
    intro fb a h ha
    rw [compatL, Bool.and_eq_true] at h
    rcases List.mem_cons.mp ha with he | hm
    · rw [he]
      exact h.1
    · exact ih fb a h.2 hm

/-- Unfolding of compat1 at a field from-node. -/
theorem compat1_field (nm : Str) (k : Kind) (v : Str) (fb : List HNode) :
    compat1 (.field nm k v) fb =
      (match lookupName fb nm with
       | some (.sec _ _) => false
       | _ => true) := by
  rw [compat1]

/-- Unfolding of compat1 at a section from-node. -/
theorem compat1_sec (nm : Str) (kids : List HNode) (fb : List HNode) :
    compat1 (.sec nm kids) fb =
      (match lookupName fb nm with
       | some (.sec _ kidsB) => compatL kids kidsB
       | some (.field _ _ _) => false
       | _ => true) := by
  rw [compat1]

/-- Merge precedence over child lists: with unique sibling names on both
    sides and variant compatibility, every field reachable in the from list
    is found verbatim (name, kind and value) in the merged list, and every
    path the from list misses is resolved by the merged list exactly as by
    the into list. -/
theorem merge_precedence_lists :
    ∀ segs fa ta,
      (sibNames fa).Nodup → (sibNames ta).Nodup →
      uniqL fa = true → uniqL ta = true → compatL fa ta = true →
      (∀ nm k v, findIn fa segs = some (.field nm k v) →
          findIn (mergeList fa ta) segs = some (.field nm k v))
      ∧ (findIn fa segs = Option.none →
          findIn (mergeList fa ta) segs = findIn ta segs) := by
  intro segs
  induction segs with
  | nil =>
    intro fa ta _ _ _ _ _
    constructor
    · intro nm k v h
      rw [findIn_nil] at h
      exact Option.noConfusion h
    · intro _
      rw [findIn_nil, findIn_nil]
  | cons s rest ih =>
    intro fa ta hA hB huA huB hc
    have hMnd : (sibNames (mergeList fa ta)).Nodup :=
      nodup_sibNames_mergeList fa ta hB
    have hfa := findIn_eq_lookup fa s rest hA
    have hta := findIn_eq_lookup ta s rest hB
    have hm := findIn_eq_lookup (mergeList fa ta) s rest hMnd
    have hml := mergeList_lookup fa ta s hA
    constructor
    · intro nm k v h
      rw [hfa] at h
      rw [hm, hml]
      cases hLa : lookupName fa s with
      | none =>
        rw [hLa] at h
        exact Option.noConfusion h
      | some x =>
        rw [hLa] at h
        have hxn := lookupName_name fa s x hLa
        have hmemA := lookupName_mem fa s x hLa
        have hcp := compatL_mem fa ta x hc hmemA
        match x, hxn, hmemA, hcp with
        | .field n' k' v', hxn, hmemA, hcp =>
          rw [nodeName] at hxn
          have hn's : n' = s := Option.some.inj hxn
          cases rest with
          | nil =>
            have h' : HNode.field n' k' v' = HNode.field nm k v :=
              Option.some.inj h
            cases hLb : lookupName ta s with
            | none => exact congrArg some h'
            | some y =>
              have hyn := lookupName_name ta s y hLb
              match y, hyn with
              | .field n'' k'' v'', hyn =>
                rw [nodeName] at hyn
                have hn''s : n'' = s := Option.some.inj hyn
                injection h' with h1 h2 h3
                show some (HNode.field n'' k' v') = some (HNode.field nm k v)
                rw [hn''s, ← hn's, h1, h2, h3]
              | .sec n'' kidsB, hyn =>
                rw [compat1_field, hn's, hLb] at hcp
                exact Bool.noConfusion hcp
              | .root ks, hyn =>
                rw [nodeName] at hyn
                exact Option.noConfusion hyn
              | .comment t b, hyn =>
                rw [nodeName] at hyn
                exact Option.noConfusion hyn
          | cons r rs => exact Option.noConfusion h
        | .sec n' kidsA, hxn, hmemA, hcp =>
          rw [nodeName] at hxn
          have hn's : n' = s := Option.some.inj hxn
          cases rest with
          | nil => exact HNode.noConfusion (Option.some.inj h)
          | cons r rs =>
            have h' : findIn kidsA (r :: rs) = some (.field nm k v) := h
            have hpA := uniqN_sec_parts n' kidsA (uniqL_mem fa _ huA hmemA)
            cases hLb : lookupName ta s with
            | none => exact h'
            | some y =>
              have hyn := lookupName_name ta s y hLb
              have hmemB := lookupName_mem ta s y hLb
              match y, hyn, hmemB with
              | .field n'' k'' v'', hyn, hmemB =>
                rw [compat1_sec, hn's, hLb] at hcp
                exact Bool.noConfusion hcp
              | .sec n'' kidsB, hyn, hmemB =>
                have hpB := uniqN_sec_parts n'' kidsB (uniqL_mem ta _ huB hmemB)
                rw [compat1_sec, hn's, hLb] at hcp
                exact (ih kidsA kidsB hpA.1 hpB.1 hpA.2 hpB.2 hcp).1 nm k v h'
              | .root ks, hyn, hmemB =>
                rw [nodeName] at hyn
                exact Option.noConfusion hyn
              | .comment t b, hyn, hmemB =>
                rw [nodeName] at hyn
                exact Option.noConfusion hyn
        | .root ks, hxn, hmemA, hcp =>
          rw [nodeName] at hxn
          exact Option.noConfusion hxn
        | .comment t b, hxn, hmemA, hcp =>
          rw [nodeName] at hxn
          exact Option.noConfusion hxn
    · intro h
      rw [hfa] at h
      rw [hm, hml, hta]
      cases hLa : lookupName fa s with
      | none => rfl
      | some x =>
        rw [hLa] at h
        have hxn := lookupName_name fa s x hLa
        have hmemA := lookupName_mem fa s x hLa
        have hcp := compatL_mem fa ta x hc hmemA
        match x, hxn, hmemA, hcp with
        | .field n' k' v', hxn, hmemA, hcp =>
          rw [nodeName] at hxn
          have hn's : n' = s := Option.some.inj hxn
          cases rest with
          | nil => exact Option.noConfusion h
          | cons r rs =>
            cases hLb : lookupName ta s with
            | none => rfl
            | some y =>
              have hyn := lookupName_name ta s y hLb
              match y, hyn with
              | .field n'' k'' v'', hyn => rfl
              | .sec n'' kidsB, hyn => rfl
              | .root ks, hyn => rfl
              | .comment t b, hyn => rfl
        | .sec n' kidsA, hxn, hmemA, hcp =>
          rw [nodeName] at hxn
          have hn's : n' = s := Option.some.inj hxn
          cases rest with
          | nil => exact Option.noConfusion h
          | cons r rs =>
            have h' : findIn kidsA (r :: rs) = Option.none := h
            have hpA := uniqN_sec_parts n' kidsA (uniqL_mem fa _ huA hmemA)
            cases hLb : lookupName ta s with
            | none => exact h'
            | some y =>
              have hyn := lookupName_name ta s y hLb
              have hmemB := lookupName_mem ta s y hLb
              match y, hyn, hmemB with
              | .field n'' k'' v'', hyn, hmemB => rfl
              | .sec n'' kidsB, hyn, hmemB =>
                have hpB := uniqN_sec_parts n'' kidsB (uniqL_mem ta _ huB hmemB)
                have hcp' : compatL kidsA kidsB = true := by
                  rw [compat1_sec, hn's, hLb] at hcp
                  exact hcp
                exact (ih kidsA kidsB hpA.1 hpB.1 hpA.2 hpB.2 hcp').2 h'
              | .root ks, hyn, hmemB => rfl
              | .comment t b, hyn, hmemB => rfl
        | .root ks, hxn, hmemA, hcp => rfl
        | .comment t b, hxn, hmemA, hcp => rfl

/-- Unpacking deep uniqueness at a root node. -/
theorem uniqN_root_parts (kids : List HNode) (h : uniqN (.root kids) = true) :
    (sibNames kids).Nodup ∧ uniqL kids = true := by
  rw [uniqN, Bool.and_eq_true] at h
  exact ⟨of_decide_eq_true h.1, h.2⟩

/-- C6 (corrected).  Merge precedence for already-exploded trees holds under
    two additional hypotheses the literal claim lacks: sibling names must be
    unique at every level of each tree, and no name may be borne by a field
    in one tree and a section in the other at the same level (the overlay
    skips such cross-variant matches).  Under these, after merge(A, B) every
    full path that find resolves to a field of A resolves in the merged tree
    to that very field (same name, kind and value), and every path find
    misses in A resolves in the merged tree exactly as in B.  A itself is a
    pure input of the embedded merge and is trivially unmodified. -/
theorem C6_merge_precedence (as bs : List HNode)
    (hA : uniqN (.root as) = true) (hB : uniqN (.root bs) = true)
    (hco : compatL as bs = true)
    (hsA : settledN (.root as) = true) (hsB : settledN (.root bs) = true) :
    (∀ p nm k v, find (.root as) p = some (.field nm k v) →
        find (merge (.root as) (.root bs)) p = some (.field nm k v))
    ∧ (∀ p, find (.root as) p = Option.none →
        find (merge (.root as) (.root bs)) p = find (.root bs) p) := by
  have hpA := uniqN_root_parts as hA
  have hpB := uniqN_root_parts bs hB
  constructor
  · intro p nm k v h
    exact (merge_precedence_lists (segsOf p) as bs hpA.1 hpB.1 hpA.2 hpB.2 hco).1
      nm k v h
  · intro p h
    exact (merge_precedence_lists (segsOf p) as bs hpA.1 hpB.1 hpA.2 hpB.2 hco).2 h

/-- Witness for C6 at concrete trees A = [x = 1] and
    B = [x = 0, y = 7]: both uniqueness, compatibility and exploded
    hypotheses hold, the path x present in A resolves in the merged tree to
    A's field, and the path y absent from A resolves as in B. -/
theorem C6_witness :
    find (merge (HNode.root [.field (str "x") Kind.none (str "1")])
                (HNode.root [.field (str "x") Kind.none (str "0"),
                             .field (str "y") Kind.none (str "7")]))
      (str "x") = some (.field (str "x") Kind.none (str "1"))
    ∧ find (merge (HNode.root [.field (str "x") Kind.none (str "1")])
                  (HNode.root [.field (str "x") Kind.none (str "0"),
                               .field (str "y") Kind.none (str "7")]))
        (str "y")
      = find (HNode.root [.field (str "x") Kind.none (str "0"),
                          .field (str "y") Kind.none (str "7")]) (str "y") := by
  constructor
  · exact (C6_merge_precedence
      [.field (str "x") Kind.none (str "1")]
      [.field (str "x") Kind.none (str "0"), .field (str "y") Kind.none (str "7")]
      (by simp [uniqN, uniqL, sibNames, nodeName, str])
      (by simp [uniqN, uniqL, sibNames, nodeName, str])
      (by simp [compatL, compat1, lookupName, str])
      (by simp [settledN, settledL, settledName, hasSlash, nameSegs, splitSlash, str])
      (by simp [settledN, settledL, settledName, hasSlash, nameSegs, splitSlash, str])).1
      (str "x") (str "x") Kind.none (str "1")
      (by simp [find, findIn, segsOf, splitSlash, str, HNode.children])
  · exact (C6_merge_precedence
      [.field (str "x") Kind.none (str "1")]
      [.field (str "x") Kind.none (str "0"), .field (str "y") Kind.none (str "7")]
      (by simp [uniqN, uniqL, sibNames, nodeName, str])
      (by simp [uniqN, uniqL, sibNames, nodeName, str])
      (by simp [compatL, compat1, lookupName, str])
      (by simp [settledN, settledL, settledName, hasSlash, nameSegs, splitSlash, str])
      (by simp [settledN, settledL, settledName, hasSlash, nameSegs, splitSlash, str])).2
      (str "y")
      (by simp [find, findIn, segsOf, splitSlash, str, HNode.children])

/-- Counterexample to the literal C6: the trees A = [x = 1, x = 2] and
    B = [x = 0] are both already exploded (no separator occurs in any name),
    yet after merge(A, B) the path x — present in A, where find resolves it
    to the value 1 — looks up in the merged tree to 2, because the overlay
    processes A's children in order and the second duplicate overwrites the
    first one's effect.  The literal claim quantifies over every pair of
    already-exploded trees and is therefore false without a sibling-name
    uniqueness hypothesis. -/
theorem C6_counterexample :
    settledN (HNode.root [.field (str "x") Kind.none (str "1"),
                          .field (str "x") Kind.none (str "2")]) = true
    ∧ settledN (HNode.root [.field (str "x") Kind.none (str "0")]) = true
    ∧ valOf (find (HNode.root [.field (str "x") Kind.none (str "1"),
                               .field (str "x") Kind.none (str "2")]) (str "x"))
        = some (str "1")
    ∧ valOf (find (merge
          (HNode.root [.field (str "x") Kind.none (str "1"),
                       .field (str "x") Kind.none (str "2")])
          (HNode.root [.field (str "x") Kind.none (str "0")])) (str "x"))
        = some (str "2") := by
  refine ⟨?_, ?_, ?_, ?_⟩
  · simp [settledN, settledL, settledName, hasSlash, nameSegs, splitSlash, str]
  · simp [settledN, settledL, settledName, hasSlash, nameSegs, splitSlash, str]
  · simp [find, findIn, segsOf, splitSlash, str, HNode.children, valOf]
  · simp [merge, mergeList, mergeOne, find, findIn, segsOf, splitSlash, str,
          HNode.children, valOf]

/-- dropWhile passes over a prefix all of whose characters satisfy the
    predicate. -/
theorem dropWhile_append_all (p : Char → Bool) :
    ∀ a b : Str, (∀ c ∈ a, p c = true) →
      List.dropWhile p (a ++ b) = List.dropWhile p b := by
  intro a
  induction a with
  | nil =>
    intro b _
    rw [List.nil_append]
  | cons c cs ih =>
    intro b h
    rw [List.cons_append, List.dropWhile, h c (List.mem_cons_self c cs)]
    exact ih b (fun d hd => h d (List.mem_cons_of_mem c hd))

/-- takeWhile keeps a prefix all of whose characters satisfy the
    predicate. -/
theorem takeWhile_append_all (p : Char → Bool) :
    ∀ a b : Str, (∀ c ∈ a, p c = true) →
      List.takeWhile p (a ++ b) = a ++ List.takeWhile p b := by
  intro a
  induction a with
  | nil =>
    intro b _
    rw [List.nil_append, List.nil_append]
  | cons c cs ih =>
    intro c' h
    rw [List.cons_append, List.takeWhile, h c (List.mem_cons_self c cs),
        ih c' (fun d hd => h d (List.mem_cons_of_mem c hd)), List.cons_append]

/-- C8.  A section body may be empty: for every nonempty section name of
    path characters (other than the closing path), the input consisting of
    the header line followed immediately by the terminator — in either of
    its two spellings, the empty brackets and the closing-dots brackets —
    is accepted by parse and yields exactly one Section child bearing that
    name and no children of its own. -/
theorem C8_empty_section_body (fname nm : Str) (h1 : nm ≠ [])
    (h2 : ∀ c ∈ nm, pathChar c = true) (h3 : nm ≠ closingDots) :
    parse fname ('[' :: (nm ++ ']' :: '\n' :: '[' :: ']' :: [])) =
      .ok (.root [.sec nm []])
    ∧ parse fname ('[' :: (nm ++ ']' :: '\n' :: '[' :: '.' :: '.' :: '/' :: ']' :: [])) =
      .ok (.root [.sec nm []]) := by
  have hne : ¬(nm = [] ∨ nm = closingDots) := by
    rintro (h | h)
    · exact h1 h
    · exact h3 h
  constructor
  · have hd : List.dropWhile pathChar (nm ++ ']' :: '\n' :: '[' :: ']' :: []) =
        ']' :: '\n' :: '[' :: ']' :: [] := by
      rw [dropWhile_append_all pathChar nm _ h2, List.dropWhile]
      simp [pathChar]
    have ht : List.takeWhile pathChar (nm ++ ']' :: '\n' :: '[' :: ']' :: []) = nm := by
      rw [takeWhile_append_all pathChar nm _ h2, List.takeWhile]
      simp [pathChar]
    have hlex : lexMain ('[' :: (nm ++ ']' :: '\n' :: '[' :: ']' :: [])) 1 false =
        .ok [⟨.lb, 1⟩, ⟨.path nm, 1⟩, ⟨.rb, 1⟩, ⟨.lb, 2⟩, ⟨.path [], 2⟩, ⟨.rb, 2⟩] := by
      simp [lexMain, dropWhileB, hd, ht, List.dropWhile, List.takeWhile, pathChar,
            Except.map]
    have hrun : runP [⟨.lb, 1⟩, ⟨.path nm, 1⟩, ⟨.rb, 1⟩, ⟨.lb, 2⟩, ⟨.path [], 2⟩,
        ⟨.rb, 2⟩] [] [] 1 = .ok (.root [.sec nm []]) := by
      simp [runP, hne]
    simp [parse, hlex, hrun]
  · have hd : List.dropWhile pathChar
        (nm ++ ']' :: '\n' :: '[' :: '.' :: '.' :: '/' :: ']' :: []) =
        ']' :: '\n' :: '[' :: '.' :: '.' :: '/' :: ']' :: [] := by
      rw [dropWhile_append_all pathChar nm _ h2, List.dropWhile]
      simp [pathChar]
    have ht : List.takeWhile pathChar
        (nm ++ ']' :: '\n' :: '[' :: '.' :: '.' :: '/' :: ']' :: []) = nm := by
      rw [takeWhile_append_all pathChar nm _ h2, List.takeWhile]
      simp [pathChar]
    have hlex : lexMain ('[' :: (nm ++ ']' :: '\n' :: '[' :: '.' :: '.' :: '/' :: ']' :: []))
        1 false =
        .ok [⟨.lb, 1⟩, ⟨.path nm, 1⟩, ⟨.rb, 1⟩, ⟨.lb, 2⟩,
             ⟨.path ('.' :: '.' :: '/' :: []), 2⟩, ⟨.rb, 2⟩] := by
      simp [lexMain, dropWhileB, hd, ht, List.dropWhile, List.takeWhile, pathChar,
            Except.map]
    have hrun : runP [⟨.lb, 1⟩, ⟨.path nm, 1⟩, ⟨.rb, 1⟩, ⟨.lb, 2⟩,
        ⟨.path ('.' :: '.' :: '/' :: []), 2⟩, ⟨.rb, 2⟩] [] [] 1 =
        .ok (.root [.sec nm []]) := by
      have ha : ¬nm = [] := h1
      have hb : ¬nm = ('.' :: '.' :: '/' :: []) := fun h => h3 (by rw [h]; rfl)
      simp [runP, ha, hb, closingDots, str]
    simp [parse, hlex, hrun]

/-- Witness for C8 at the concrete name hello: the two-line inputs with the
    empty-bracket terminator parse to a single childless Section. -/
theorem C8_witness :
    parse (str "f") ('[' :: (str "hello" ++ ']' :: '\n' :: '[' :: ']' :: [])) =
      .ok (.root [.sec (str "hello") []]) := by
  exact (C8_empty_section_body (str "f") (str "hello") (by decide) (by decide)
    (by decide)).1

/-- Witness for C5 at concrete trees: a slash-free tree is left unchanged by
    explode (via the theorem), exercised on a small two-level tree. -/
theorem C5_witness :
    explode (HNode.root [HNode.sec (str "a")
      [HNode.field (str "x") Kind.int (str "1")]]) =
    HNode.root [HNode.sec (str "a") [HNode.field (str "x") Kind.int (str "1")]] := by
  exact (C5_explode_idempotent _).2
    (by simp [slashFreeN, slashFreeL, hasSlash, str])

/-! Claim C4: round-trip.  The invariants below characterize exactly the
    trees the parser can produce; rendering such a tree and re-lexing,
    re-parsing it reproduces the tree up to the comments' inline flags
    (render places every comment on a line of its own). -/

/-- A valid quoted-value tail for quote character q in escape state esc:
    the scanner consumes exactly this string, ending at the closing
    quote. -/
def qbody (q : Char) : Str → Bool → Bool
  | [], _ => false
  | c :: cs, esc =>
    if esc then qbody q cs false
    else if c = q then cs.isEmpty
    else if c = '\\' then qbody q cs true
    else qbody q cs false

/-- A raw field value as the lexer can produce it: a quote character
    followed by a well-scanned quoted tail, or a nonempty run of value
    characters not starting with a quote. -/
def wfVal : Str → Bool
  | [] => false
  | c :: cs =>
    if c = '\'' ∨ c = '"' then qbody c cs false
    else (c :: cs).all valChar

/-- A raw comment text as the lexer can produce it: starts with the hash
    and runs to the end of its line. -/
def wfCmt (txt : Str) : Bool :=
  match txt with
  | [] => false
  | c :: _ => c = '#' && txt.all (fun d => !(d == '\n'))

mutual
/-- A node the parser can produce below the root: section and field names
    are nonempty path-character runs, a section name is never the closing
    path, a field's kind is inferred from its raw value, values and comment
    texts are lexable. -/
def wfN : HNode → Bool
  | .root _ => false
  | .sec p cs =>
    !p.isEmpty && p.all pathChar && !(decide (p = closingDots)) && wfL cs
  | .field p k v =>
    !p.isEmpty && p.all pathChar && (decide (k = inferKind v)) && wfVal v
  | .comment txt _ => wfCmt txt
termination_by n => sizeOf n
decreasing_by all_goals (simp_wf <;> omega)

/-- Parser-producible child lists. -/
def wfL : List HNode → Bool
  | [] => true
  | c :: cs => wfN c && wfL cs
termination_by ns => sizeOf ns
decreasing_by all_goals (simp_wf <;> omega)
end

mutual
/-- The tree render followed by parse reproduces: identical except that
    every comment's inline flag is cleared (render puts each comment on its
    own line). -/
def scrubN : HNode → HNode
  | .root cs => .root (scrubL cs)
  | .sec p cs => .sec p (scrubL cs)
  | .field p k v => .field p k v
  | .comment txt _ => .comment txt false
termination_by n => sizeOf n
decreasing_by all_goals (simp_wf <;> omega)

/-- scrubN over a child list. -/
def scrubL : List HNode → List HNode
  | [] => []
  | c :: cs => scrubN c :: scrubL cs
termination_by ns => sizeOf ns
decreasing_by all_goals (simp_wf <;> omega)
end

mutual
/-- Structural and semantic equivalence of the round-trip claim: same node
    types, same child order, same kinds, same raw string values (comment
    texts equal; the inline placement flag is not part of it). -/
def eqvN : HNode → HNode → Bool
  | .root a, .root b => eqvL a b
  | .sec p a, .sec p' b => decide (p = p') && eqvL a b
  | .field p k v, .field p' k' v' =>
    decide (p = p') && decide (k = k') && decide (v = v')
  | .comment t _, .comment t' _ => decide (t = t')
  | _, _ => false
termination_by a _ => sizeOf a
decreasing_by all_goals (simp_wf <;> omega)

/-- eqvN over child lists, in order. -/
def eqvL : List HNode → List HNode → Bool
  | [], [] => true
  | a :: as, b :: bs => eqvN a b && eqvL as bs
  | _, _ => false
termination_by ns _ => sizeOf ns
decreasing_by all_goals (simp_wf <;> omega)
end

mutual
/-- The token kinds the lexer produces from a rendered node. -/
def tokSpecN : HNode → List Tok
  | .root cs => tokSpecL cs
  | .sec p cs =>
    .lb :: .path p :: .rb :: (tokSpecL cs ++ [.lb, .path [], .rb])
  | .field p _ v => [.path p, .eq, .val v]
  | .comment txt _ => [.comment txt false]
termination_by n => sizeOf n
decreasing_by all_goals (simp_wf <;> omega)

/-- The token kinds the lexer produces from a rendered child list. -/
def tokSpecL : List HNode → List Tok
  | [] => []
  | c :: cs => tokSpecN c ++ tokSpecL cs
termination_by ns => sizeOf ns
decreasing_by all_goals (simp_wf <;> omega)
end

/-- Well-formedness of a lexer token stream, by token kind: a left bracket
    opens a bracketed path-character path, a bare path is a nonempty
    path-character run, values and comments carry lexable text. -/
def tokStreamWF : List Tok → Bool
  | [] => true
  | .lb :: .path p :: .rb :: rest => p.all pathChar && tokStreamWF rest
  | .lb :: _ => false
  | .path p :: rest => !p.isEmpty && p.all pathChar && tokStreamWF rest
  | .comment txt _ :: rest => wfCmt txt && tokStreamWF rest
  | .val v :: rest => wfVal v && tokStreamWF rest
  | .eq :: rest => tokStreamWF rest
  | .rb :: rest => tokStreamWF rest
termination_by ts => ts.length
decreasing_by all_goals (simp_wf <;> omega)

/-- Well-formedness of the parser's open-section stack: every entry
    carries a pushable section name and a parser-produced sibling list. -/
def stkWF : List (Str × List HNode) → Bool
  | [] => true
  | f :: fs =>
    !f.1.isEmpty && f.1.all pathChar && !(decide (f.1 = closingDots)) &&
      wfL f.2 && stkWF fs

/-- The scanner consumes exactly a valid quoted tail, whatever follows. -/
theorem scanQuoted_of_qbody (q : Char) :
    ∀ (s : Str) (esc : Bool), qbody q s esc = true →
      ∀ (rest : Str) (line : Nat),
        ∃ r, scanQuoted q (s ++ rest) line esc = some r ∧
          r.1 = s ∧ r.2.1.1 = rest := by
  intro s
  induction s with
  | nil =>
    intro esc h _ _
    rw [qbody] at h
    exact Bool.noConfusion h
  | cons c cs ih =>
    intro esc h rest line
    rw [qbody] at h
    cases esc with
    | true =>
      rw [if_pos rfl] at h
      obtain ⟨r, hr, h1, h2⟩ := ih false h rest (if c = '\n' then line + 1 else line)
      rw [List.cons_append, scanQuoted, if_pos rfl, hr]
      exact ⟨_, rfl, by show c :: r.1 = c :: cs; rw [h1], h2⟩
    | false =>
      rw [if_neg Bool.false_ne_true] at h
      by_cases hcq : c = q
      · rw [if_pos hcq] at h
        have hcs : cs = [] := by
          cases cs with
          | nil => rfl
          | cons d ds => exact Bool.noConfusion h
        subst hcs
        subst hcq
        rw [List.cons_append, List.nil_append, scanQuoted,
            if_neg Bool.false_ne_true, if_pos rfl]
        exact ⟨_, rfl, rfl, rfl⟩
      · rw [if_neg hcq] at h
        by_cases hcb : c = '\\'
        · rw [if_pos hcb] at h
          obtain ⟨r, hr, h1, h2⟩ := ih true h rest line
          rw [List.cons_append, scanQuoted, if_neg Bool.false_ne_true,
              if_neg hcq, if_pos hcb, hr]
          exact ⟨_, rfl, by show c :: r.1 = c :: cs; rw [h1], h2⟩
        · rw [if_neg hcb] at h
          obtain ⟨r, hr, h1, h2⟩ := ih false h rest (if c = '\n' then line + 1 else line)
          rw [List.cons_append, scanQuoted, if_neg Bool.false_ne_true,
              if_neg hcq, if_neg hcb, hr]
          exact ⟨_, rfl, by show c :: r.1 = c :: cs; rw [h1], h2⟩

/-- What the scanner accepts is a valid quoted tail followed by the rest it
    returns. -/
theorem scanQuoted_wf (q : Char) :
    ∀ (s : Str) (line : Nat) (esc : Bool) r,
      scanQuoted q s line esc = some r →
      qbody q r.1 esc = true ∧ s = r.1 ++ r.2.1.1 := by
  intro s
  induction s with
  | nil =>
    intro line esc r h
    rw [scanQuoted] at h
    exact Option.noConfusion h
  | cons c cs ih =>
    intro line esc r h
    rw [scanQuoted] at h
    cases esc with
    | true =>
      rw [if_pos rfl] at h
      cases hs : scanQuoted q cs (if c = '\n' then line + 1 else line) false with
      | none =>
        rw [hs] at h
        exact Option.noConfusion h
      | some r' =>
        rw [hs] at h
        have e := Option.some.inj h
        obtain ⟨h1, h2⟩ := ih _ false r' hs
        have e1 : r.1 = c :: r'.1 := congrArg (fun x => x.1) e.symm
        have e2 : r.2.1.1 = r'.2.1.1 := congrArg (fun x => x.2.1.1) e.symm
        constructor
        · rw [e1, qbody, if_pos rfl]
          exact h1
        · rw [e1, e2, List.cons_append, ← h2]
    | false =>
      rw [if_neg Bool.false_ne_true] at h
      by_cases hcq : c = q
      · rw [if_pos hcq] at h
        have e := Option.some.inj h
        have e1 : r.1 = [q] := congrArg (fun x => x.1) e.symm
        have e2 : r.2.1.1 = cs := congrArg (fun x => x.2.1.1) e.symm
        constructor
        · rw [e1, qbody, if_neg Bool.false_ne_true, if_pos rfl]
          rfl
        · rw [e1, e2, hcq]
          rfl
      · rw [if_neg hcq] at h
        by_cases hcb : c = '\\'
        · rw [if_pos hcb] at h
          cases hs : scanQuoted q cs line true with
          | none =>
            rw [hs] at h
            exact Option.noConfusion h
          | some r' =>
            rw [hs] at h
            have e := Option.some.inj h
            obtain ⟨h1, h2⟩ := ih _ true r' hs
            have e1 : r.1 = c :: r'.1 := congrArg (fun x => x.1) e.symm
            have e2 : r.2.1.1 = r'.2.1.1 := congrArg (fun x => x.2.1.1) e.symm
            constructor
            · rw [e1, qbody, if_neg Bool.false_ne_true, if_neg hcq, if_pos hcb]
              exact h1
            · rw [e1, e2, List.cons_append, ← h2]
        · rw [if_neg hcb] at h
          cases hs : scanQuoted q cs (if c = '\n' then line + 1 else line) false with
          | none =>
            rw [hs] at h
            exact Option.noConfusion h
          | some r' =>
            rw [hs] at h
            have e := Option.some.inj h
            obtain ⟨h1, h2⟩ := ih _ false r' hs
            have e1 : r.1 = c :: r'.1 := congrArg (fun x => x.1) e.symm
            have e2 : r.2.1.1 = r'.2.1.1 := congrArg (fun x => x.2.1.1) e.symm
            constructor
            · rw [e1, qbody, if_neg Bool.false_ne_true, if_neg hcq, if_neg hcb]
              exact h1
            · rw [e1, e2, List.cons_append, ← h2]

/-- Value lexing consumes exactly a well-formed value when a newline
    follows it. -/
theorem lexVal_of_wfVal :
    ∀ (v : Str), wfVal v = true → ∀ (rest : Str) (line : Nat),
      ∃ r, lexVal (v ++ '\n' :: rest) line = .ok r ∧
        r.1 = some (.val v) ∧ r.2.1.1 = '\n' :: rest := by
  intro v hv rest line
  match v, hv with
  | c :: cs, hv =>
    rw [wfVal] at hv
    by_cases hq : c = '\'' ∨ c = '"'
    · rw [if_pos hq] at hv
      obtain ⟨r, hr, h1, h2⟩ := scanQuoted_of_qbody c cs false hv ('\n' :: rest) line
      have hc1 : ¬(c = ' ' ∨ c = '\t') := by
        rcases hq with h | h <;> subst h <;> decide
      have hc2 : ¬(c = '\n' ∨ c = '[') := by
        rcases hq with h | h <;> subst h <;> decide
      rw [List.cons_append, lexVal, if_neg hc1, if_neg hc2, if_pos hq, hr]
      exact ⟨_, rfl, by show some (Tok.val (c :: r.1)) = some (Tok.val (c :: cs)); rw [h1], h2⟩
    · rw [if_neg hq] at hv
      rw [List.all_cons, Bool.and_eq_true] at hv
      have hc : valChar c = true := hv.1
      have hc1 : ¬(c = ' ' ∨ c = '\t') := by
        rintro (h | h) <;> subst h <;> simp [valChar] at hc
      have hc2 : ¬(c = '\n' ∨ c = '[') := by
        rintro (h | h) <;> subst h <;> simp [valChar] at hc
      have htk : List.takeWhile valChar (c :: (cs ++ '\n' :: rest)) = c :: cs := by
        rw [List.takeWhile, hc, takeWhile_append_all valChar cs _
              (fun d hd => by
                have := List.all_eq_true.mp hv.2 d hd
                exact this),
            List.takeWhile]
        simp [valChar]
      have hdk : List.dropWhile valChar (c :: (cs ++ '\n' :: rest)) = '\n' :: rest := by
        rw [List.dropWhile, hc, dropWhile_append_all valChar cs _
              (fun d hd => by
                have := List.all_eq_true.mp hv.2 d hd
                exact this),
            List.dropWhile]
        simp [valChar]
      rw [List.cons_append, lexVal, if_neg hc1, if_neg hc2, if_neg hq]
      exact ⟨_, rfl, by rw [htk], hdk⟩

/-- The lexer skips any run of spaces without changing its state. -/
theorem lexMain_spaces :
    ∀ (n : Nat) (xs : Str) (line : Nat) (seen : Bool),
      lexMain (List.replicate n ' ' ++ xs) line seen = lexMain xs line seen := by
  intro n
  induction n with
  | zero =>
    intro xs line seen
    rw [List.replicate, List.nil_append]
  | succ n ih =>
    intro xs line seen
    rw [List.replicate, List.cons_append, lexMain, if_pos (Or.inl rfl)]
    exact ih xs line seen

/-- The lexer skips rendered indentation. -/
theorem lexMain_indent (ind : Nat) (xs : Str) (line : Nat) (seen : Bool) :
    lexMain (indentStr ind ++ xs) line seen = lexMain xs line seen := by
  rw [indentStr]
  exact lexMain_spaces _ xs line seen

/-- A path character is none of the lexer's special characters. -/
theorem pathChar_facts (c : Char) (h : pathChar c = true) :
    ¬(c = ' ' ∨ c = '\t') ∧ ¬c = '\n' ∧ ¬c = '#' ∧ ¬c = '[' ∧ ¬c = '=' := by
  refine ⟨?_, ?_, ?_, ?_, ?_⟩
  · rintro (he | he) <;> (subst he; revert h; decide)
  · intro he
    subst he
    revert h
    decide
  · intro he
    subst he
    revert h
    decide
  · intro he
    subst he
    revert h
    decide
  · intro he
    subst he
    revert h
    decide

/-- The lexer turns a rendered field line into its three tokens and
    continues after the newline. -/
theorem lexField (p v : Str) (k : Kind) (hp : p ≠ [])
    (hall : ∀ c ∈ p, pathChar c = true) (hval : wfVal v = true)
    (ind line : Nat) (R : Str) :
    ∃ (line' : Nat) (pre : List Token),
      pre.map Token.t = [Tok.path p, Tok.eq, Tok.val v] ∧
      ∀ out, lexMain R line' false = .ok out →
        lexMain (render ind (.field p k v) ++ R) line false = .ok (pre ++ out) := by
  obtain ⟨rV, hV, hV1, hV2⟩ := lexVal_of_wfVal v hval R line
  refine ⟨rV.2.2 + 1, [⟨.path p, line⟩, ⟨.eq, line⟩, ⟨.val v, rV.2.2⟩], rfl, ?_⟩
  intro out hout
  have hstr : render ind (.field p k v) ++ R =
      indentStr ind ++ (p ++ (' ' :: '=' :: ' ' :: (v ++ '\n' :: R))) := by
    rw [render]
    simp [List.append_assoc]
  rw [hstr, lexMain_indent]
  match p, hp with
  | p0 :: p', _ =>
    have hc0 : pathChar p0 = true := hall p0 (List.mem_cons_self _ _)
    obtain ⟨hf1, hf2, hf3, hf4, hf5⟩ := pathChar_facts p0 hc0
    have htk : List.takeWhile pathChar
        ((p0 :: p') ++ (' ' :: '=' :: ' ' :: (v ++ '\n' :: R))) = p0 :: p' := by
      rw [takeWhile_append_all pathChar _ _ hall, List.takeWhile]
      simp [pathChar]
    have hdk : List.dropWhile pathChar
        ((p0 :: p') ++ (' ' :: '=' :: ' ' :: (v ++ '\n' :: R))) =
        ' ' :: '=' :: ' ' :: (v ++ '\n' :: R) := by
      rw [dropWhile_append_all pathChar _ _ hall, List.dropWhile]
      simp [pathChar]
    rw [List.cons_append, lexMain, if_neg hf1, if_neg hf2, if_neg hf3, if_neg hf4,
        if_neg hf5, if_pos hc0, ← List.cons_append, htk, hdk]
    rw [lexMain, if_pos (Or.inl rfl), lexMain, if_neg (by decide), if_neg (by decide),
        if_neg (by decide), if_neg (by decide), if_pos rfl]
    rw [lexVal, if_pos (Or.inl rfl), hV]
    simp only [Except.map]
    rw [hV1]
    show Except.map (fun ts => (⟨Tok.path (p0 :: p'), line⟩ : Token) :: ts)
        (Except.map
          (fun ts => (⟨Tok.eq, line⟩ : Token) :: (⟨Tok.val v, rV.2.2⟩ : Token) :: ts)
          (lexMain rV.2.1.1 rV.2.2 true)) =
      Except.ok ([(⟨Tok.path (p0 :: p'), line⟩ : Token), ⟨Tok.eq, line⟩,
        ⟨Tok.val v, rV.2.2⟩] ++ out)
    rw [hV2, lexMain, if_neg (by decide), if_pos rfl, hout]
    rfl
/-- The lexer turns a rendered comment line into one non-inline comment
    token and continues after the newline. -/
theorem lexComment (txt : Str) (b : Bool) (hc : wfCmt txt = true)
    (ind line : Nat) (R : Str) :
    ∀ out, lexMain R (line + 1) false = .ok out →
      lexMain (render ind (.comment txt b) ++ R) line false =
        .ok ((⟨Tok.comment txt false, line⟩ : Token) :: out) := by
  intro out hout
  have hstr : render ind (.comment txt b) ++ R =
      indentStr ind ++ (txt ++ '\n' :: R) := by
    rw [render]
    simp [List.append_assoc]
  rw [hstr, lexMain_indent]
  rw [wfCmt.eq_def] at hc
  match txt, hc with
  | c :: t', hc =>
    rw [Bool.and_eq_true] at hc
    have hch : c = '#' := of_decide_eq_true hc.1
    have hall : ∀ d ∈ (c :: t' : Str), (fun d => !(d == '\n')) d = true :=
      fun d hd => List.all_eq_true.mp hc.2 d hd
    have htk : List.takeWhile (fun d => !(d == '\n')) ((c :: t') ++ '\n' :: R) =
        c :: t' := by
      rw [takeWhile_append_all _ _ _ hall, List.takeWhile]
      simp
    have hdk : List.dropWhile (fun d => !(d == '\n')) ((c :: t') ++ '\n' :: R) =
        '\n' :: R := by
      rw [dropWhile_append_all _ _ _ hall, List.dropWhile]
      simp
    subst hch
    rw [List.cons_append, lexMain, if_neg (by decide), if_neg (by decide),
        if_pos rfl, ← List.cons_append, htk, hdk, lexMain, if_neg (by decide),
        if_pos rfl, hout]
    rfl

/-- The lexer turns a rendered bracketed line into its bracket-path-bracket
    triple and continues after the newline. -/
theorem lexHeader (p : Str) (hp : ∀ c ∈ p, pathChar c = true)
    (ind line : Nat) (X : Str) :
    ∀ out, lexMain X (line + 1) false = .ok out →
      lexMain (indentStr ind ++ ('[' :: (p ++ ']' :: '\n' :: X))) line false =
        .ok ((⟨Tok.lb, line⟩ : Token) :: (⟨Tok.path p, line⟩ : Token) ::
          (⟨Tok.rb, line⟩ : Token) :: out) := by
  intro out hout
  rw [lexMain_indent]
  have hd : List.dropWhile pathChar (p ++ ']' :: '\n' :: X) = ']' :: '\n' :: X := by
    rw [dropWhile_append_all pathChar _ _ hp, List.dropWhile]
    simp [pathChar]
  have ht : List.takeWhile pathChar (p ++ ']' :: '\n' :: X) = p := by
    rw [takeWhile_append_all pathChar _ _ hp, List.takeWhile]
    simp [pathChar]
  simp [lexMain, dropWhileB, hd, ht, Except.map, hout]
/-- The lexer on a rendered well-formed child list: it produces exactly the
    specified token kinds and continues into whatever follows. -/
theorem lexRender :
    ∀ (N : Nat) (cs : List HNode), sizeOf cs ≤ N → wfL cs = true →
      ∀ (ind line : Nat) (rest : Str),
        ∃ (line' : Nat) (pre : List Token),
          pre.map Token.t = tokSpecL cs ∧
          ∀ out, lexMain rest line' false = .ok out →
            lexMain (renderList ind cs ++ rest) line false = .ok (pre ++ out) := by
  intro N
  induction N with
  | zero =>
    intro cs hsz
    cases cs <;> simp at hsz
  | succ N ih =>
    intro cs hsz hwf ind line rest
    match cs with
    | [] =>
      refine ⟨line, [], by rw [tokSpecL]; rfl, ?_⟩
      intro out hout
      rw [renderList, List.nil_append]
      exact hout
    | c :: cs' =>
      rw [wfL, Bool.and_eq_true] at hwf
      have hszc : sizeOf cs' ≤ N := by
        simp at hsz
        omega
      match c, hwf.1 with
      | .root ks, hwfc =>
        rw [wfN] at hwfc
        exact Bool.noConfusion hwfc
      | .field p k v, hwfc =>
        rw [wfN] at hwfc
        simp only [Bool.and_eq_true] at hwfc
        obtain ⟨⟨⟨hpe, hpa⟩, hk⟩, hval⟩ := hwfc
        have hp : p ≠ [] := by
          intro he
          subst he
          simp at hpe
        have hall : ∀ ch ∈ p, pathChar ch = true :=
          fun ch hc => List.all_eq_true.mp hpa ch hc
        obtain ⟨lineF, preF, hmapF, hcontF⟩ :=
          lexField p v k hp hall hval ind line (renderList ind cs' ++ rest)
        obtain ⟨lineA, preA, hmapA, hcontA⟩ := ih cs' hszc hwf.2 ind lineF rest
        refine ⟨lineA, preF ++ preA, ?_, ?_⟩
        · rw [List.map_append, hmapF, hmapA, tokSpecL, tokSpecN]
        · intro out hout
          have hA := hcontA out hout
          have hF := hcontF (preA ++ out) hA
          rw [renderList, List.append_assoc]
          rw [hF, List.append_assoc]
      | .comment txt b, hwfc =>
        rw [wfN] at hwfc
        obtain ⟨lineA, preA, hmapA, hcontA⟩ := ih cs' hszc hwf.2 ind (line + 1) rest
        refine ⟨lineA, (⟨Tok.comment txt false, line⟩ : Token) :: preA, ?_, ?_⟩
        · rw [List.map_cons, hmapA, tokSpecL, tokSpecN]
          rfl
        · intro out hout
          have hA := hcontA out hout
          have hC := lexComment txt b hwfc ind line (renderList ind cs' ++ rest)
            (preA ++ out) hA
          rw [renderList, List.append_assoc]
          rw [hC]
          rfl
      | .sec p kids, hwfc =>
        rw [wfN] at hwfc
        simp only [Bool.and_eq_true] at hwfc
        obtain ⟨⟨⟨hpe, hpa⟩, hcl⟩, hkw⟩ := hwfc
        have hall : ∀ ch ∈ p, pathChar ch = true :=
          fun ch hc => List.all_eq_true.mp hpa ch hc
        have hszk : sizeOf kids ≤ N := by
          simp at hsz
          omega
        obtain ⟨lineK, preK, hmapK, hcontK⟩ :=
          ih kids hszk hkw (ind + 1) (line + 1)
            (indentStr ind ++ ('[' :: ([] ++ ']' :: '\n' ::
              (renderList ind cs' ++ rest))))
        obtain ⟨lineA, preA, hmapA, hcontA⟩ := ih cs' hszc hwf.2 ind (lineK + 1) rest
        refine ⟨lineA,
          (⟨Tok.lb, line⟩ : Token) :: (⟨Tok.path p, line⟩ : Token) ::
            (⟨Tok.rb, line⟩ : Token) :: (preK ++
              ((⟨Tok.lb, lineK⟩ : Token) :: (⟨Tok.path [], lineK⟩ : Token) ::
                (⟨Tok.rb, lineK⟩ : Token) :: preA)), ?_, ?_⟩
        · simp only [List.map_cons, List.map_append, hmapK, hmapA, tokSpecL,
            tokSpecN]
          simp
        · intro out hout
          have hA := hcontA out hout
          have hCl := lexHeader [] (fun ch hc => absurd hc (List.not_mem_nil ch))
            ind lineK (renderList ind cs' ++ rest) (preA ++ out) hA
          have hK := hcontK _ hCl
          have hH := lexHeader p hall ind line
            (renderList (ind + 1) kids ++
              (indentStr ind ++ ('[' :: ([] ++ ']' :: '\n' ::
                (renderList ind cs' ++ rest))))) _ hK
          have hstr : renderList ind (HNode.sec p kids :: cs') ++ rest =
              indentStr ind ++ ('[' :: (p ++ ']' :: '\n' ::
                (renderList (ind + 1) kids ++
                  (indentStr ind ++ ('[' :: ([] ++ ']' :: '\n' ::
                    (renderList ind cs' ++ rest))))))) := by
            rw [renderList, render]
            simp [List.append_assoc]
          rw [hstr, hH]
          simp
/-- A token list whose kinds split as an append splits accordingly. -/
theorem map_t_split :
    ∀ (a : List Tok) (pre : List Token) (b : List Tok),
      pre.map Token.t = a ++ b →
      ∃ p q, pre = p ++ q ∧ p.map Token.t = a ∧ q.map Token.t = b := by
  intro a
  induction a with
  | nil =>
    intro pre b h
    exact ⟨[], pre, rfl, rfl, h⟩
  | cons t ts ih =>
    intro pre b h
    match pre with
    | [] => simp at h
    | tok :: pre' =>
      rw [List.map_cons, List.cons_append] at h
      have h1 : tok.t = t := (List.cons.injEq _ _ _ _ ▸ h).1
      have h2 : pre'.map Token.t = ts ++ b := (List.cons.injEq _ _ _ _ ▸ h).2
      obtain ⟨p, q, hpq, hm1, hm2⟩ := ih pre' b h2
      exact ⟨tok :: p, q, by rw [hpq, List.cons_append],
        by rw [List.map_cons, hm1, h1], hm2⟩

/-- A token list with exactly one specified kind is that one token. -/
theorem map_t_one (pre : List Token) (a : Tok) (h : pre.map Token.t = [a]) :
    ∃ l1, pre = [⟨a, l1⟩] := by
  match pre with
  | [] => simp at h
  | [t1] =>
    obtain ⟨t1t, t1l⟩ := t1
    simp at h
    subst h
    exact ⟨t1l, rfl⟩
  | t1 :: t2 :: r => simp at h

/-- A token list with exactly three specified kinds is those three
    tokens. -/
theorem map_t_three (pre : List Token) (a b c : Tok)
    (h : pre.map Token.t = [a, b, c]) :
    ∃ l1 l2 l3, pre = [⟨a, l1⟩, ⟨b, l2⟩, ⟨c, l3⟩] := by
  match pre with
  | [] => simp at h
  | [t1] => simp at h
  | [t1, t2] => simp at h
  | [t1, t2, t3] =>
    obtain ⟨t1t, t1l⟩ := t1
    obtain ⟨t2t, t2l⟩ := t2
    obtain ⟨t3t, t3l⟩ := t3
    simp at h
    obtain ⟨e1, e2, e3⟩ := h
    subst e1
    subst e2
    subst e3
    exact ⟨t1l, t2l, t3l, rfl⟩
  | t1 :: t2 :: t3 :: t4 :: r => simp at h

/-- The parser on the tokens of a rendered well-formed child list: it
    appends the scrubbed children to the accumulator and continues with the
    remaining tokens, whatever they are. -/
theorem runRender :
    ∀ (N : Nat) (cs : List HNode), sizeOf cs ≤ N → wfL cs = true →
      ∀ (pre rest : List Token) (acc : List HNode)
        (stk : List (Str × List HNode)) (l : Nat),
        pre.map Token.t = tokSpecL cs →
        ∃ l', runP (pre ++ rest) acc stk l = runP rest (acc ++ scrubL cs) stk l' := by
  intro N
  induction N with
  | zero =>
    intro cs hsz
    cases cs <;> simp at hsz
  | succ N ih =>
    intro cs hsz hwf pre rest acc stk l hmap
    match cs with
    | [] =>
      rw [tokSpecL] at hmap
      have hpre : pre = [] := List.map_eq_nil.mp hmap
      subst hpre
      refine ⟨l, ?_⟩
      rw [List.nil_append, scrubL, List.append_nil]
    | c :: cs' =>
      rw [wfL, Bool.and_eq_true] at hwf
      rw [tokSpecL] at hmap
      obtain ⟨p1, p2, hpre, hm1, hm2⟩ := map_t_split _ pre _ hmap
      subst hpre
      have hszc : sizeOf cs' ≤ N := by
        simp at hsz
        omega
      match c, hwf.1 with
      | .root ks, hwfc =>
        rw [wfN] at hwfc
        exact Bool.noConfusion hwfc
      | .field p k v, hwfc =>
        rw [wfN] at hwfc
        simp only [Bool.and_eq_true] at hwfc
        obtain ⟨⟨⟨hpe, hpa⟩, hk⟩, hval⟩ := hwfc
        rw [tokSpecN] at hm1
        obtain ⟨l1, l2, l3, hp1⟩ := map_t_three p1 _ _ _ hm1
        subst hp1
        have hkeq : k = inferKind v := of_decide_eq_true hk
        obtain ⟨l', hrun⟩ := ih cs' hszc hwf.2 p2 rest
          (acc ++ [HNode.field p k v]) stk l1 hm2
        refine ⟨l', ?_⟩
        rw [List.append_assoc]
        simp only [List.cons_append, List.nil_append]
        rw [runP, ← hkeq, hrun, scrubL, scrubN]
        rw [List.append_assoc]
        rfl
      | .comment txt b, hwfc =>
        rw [tokSpecN] at hm1
        obtain ⟨l1, hp1⟩ := map_t_one p1 _ hm1
        subst hp1
        obtain ⟨l', hrun⟩ := ih cs' hszc hwf.2 p2 rest
          (acc ++ [HNode.comment txt false]) stk l1 hm2
        refine ⟨l', ?_⟩
        rw [List.append_assoc]
        simp only [List.cons_append, List.nil_append]
        rw [runP, hrun, scrubL, scrubN]
        rw [List.append_assoc]
        rfl
      | .sec p kids, hwfc =>
        rw [wfN] at hwfc
        simp only [Bool.and_eq_true] at hwfc
        obtain ⟨⟨⟨hpe, hpa⟩, hcl⟩, hkw⟩ := hwfc
        have hpne : p ≠ [] := by
          intro he
          subst he
          simp at hpe
        have hpncl : p ≠ closingDots := by
          intro he
          rw [he] at hcl
          simp at hcl
        have hcond : ¬(p = [] ∨ p = closingDots) := by
          rintro (he | he)
          · exact hpne he
          · exact hpncl he
        rw [tokSpecN] at hm1
        have hm1' : p1.map Token.t =
            [Tok.lb, Tok.path p, Tok.rb] ++ (tokSpecL kids ++ [Tok.lb, Tok.path [], Tok.rb]) := by
          rw [hm1]
          rfl
        obtain ⟨ph, pt, hp1, hmh, hmt⟩ := map_t_split _ p1 _ hm1'
        obtain ⟨lh1, lh2, lh3, hph⟩ := map_t_three ph _ _ _ hmh
        obtain ⟨pk, pc, hpt, hmk, hmc⟩ := map_t_split _ pt _ hmt
        obtain ⟨lc1, lc2, lc3, hpc⟩ := map_t_three pc _ _ _ hmc
        subst hph
        subst hpc
        subst hp1
        subst hpt
        have hszk : sizeOf kids ≤ N := by
          simp at hsz
          omega
        obtain ⟨lK, hrunK⟩ := ih kids hszk hkw pk
          (([(⟨Tok.lb, lc1⟩ : Token), ⟨Tok.path [], lc2⟩, ⟨Tok.rb, lc3⟩]) ++ (p2 ++ rest))
          [] ((p, acc) :: stk) lh1 hmk
        obtain ⟨l', hrunA⟩ := ih cs' hszc hwf.2 p2 rest
          (acc ++ [HNode.sec p (scrubL kids)]) stk lc1 hm2
        refine ⟨l', ?_⟩
        rw [List.append_assoc, List.append_assoc]
        simp only [List.cons_append, List.nil_append]
        rw [runP.eq_def]
        simp only []
        rw [if_neg hcond]
        rw [List.append_assoc pk]
        rw [hrunK]
        simp only [List.cons_append, List.nil_append]
        rw [runP]
        rw [if_pos (Or.inl rfl)]
        rw [hrunA, scrubL, scrubN]
        rw [List.append_assoc]
        rfl
/-- Every value token the value lexer produces carries a well-formed raw
    value. -/
theorem lexVal_wf :
    ∀ (s : Str) (line : Nat) r, lexVal s line = .ok r →
      ∀ tk, r.1 = some tk → ∃ v, tk = .val v ∧ wfVal v = true := by
  intro s
  induction s with
  | nil =>
    intro line r h tk htk
    rw [lexVal] at h
    have e := Except.ok.inj h
    rw [← e] at htk
    exact Option.noConfusion htk
  | cons c cs ih =>
    intro line r h tk htk
    rw [lexVal] at h
    by_cases h1 : c = ' ' ∨ c = '\t'
    · rw [if_pos h1] at h
      cases hr : lexVal cs line with
      | error e' =>
        rw [hr] at h
        exact Except.noConfusion h
      | ok r' =>
        rw [hr] at h
        simp [Except.map] at h
        have e1 : r.1 = r'.1 := by rw [← h]
        exact ih line r' hr tk (by rw [← e1]; exact htk)
    · rw [if_neg h1] at h
      by_cases h2 : c = '\n' ∨ c = '['
      · rw [if_pos h2] at h
        have e := Except.ok.inj h
        rw [← e] at htk
        exact Option.noConfusion htk
      · rw [if_neg h2] at h
        by_cases h3 : c = '\'' ∨ c = '"'
        · rw [if_pos h3] at h
          cases hr : scanQuoted c cs line false with
          | none =>
            rw [hr] at h
            exact Except.noConfusion h
          | some r' =>
            rw [hr] at h
            have e := Except.ok.inj h
            rw [← e] at htk
            have htk' : some (Tok.val (c :: r'.1)) = some tk := htk
            refine ⟨c :: r'.1, (Option.some.inj htk').symm, ?_⟩
            rw [wfVal, if_pos h3]
            exact (scanQuoted_wf c cs line false r' hr).1
        · rw [if_neg h3] at h
          have e := Except.ok.inj h
          rw [← e] at htk
          have htk' : some (Tok.val (List.takeWhile valChar (c :: cs))) = some tk :=
            htk
          refine ⟨List.takeWhile valChar (c :: cs), (Option.some.inj htk').symm, ?_⟩
          have hvc : valChar c = true := by
            push_neg at h1 h2
            simp [valChar, h1.1, h1.2, h2.1, h2.2]
          rw [List.takeWhile, hvc, wfVal, if_neg h3, List.all_cons, hvc]
          simp only [Bool.true_and]
          exact List.all_eq_true.mpr
            (fun d hd => List.mem_takeWhile_imp hd)
/-- Unfolding of wfCmt at a nonempty text. -/
theorem wfCmt_cons (c : Char) (t : Str) :
    wfCmt (c :: t) = (c = '#' && (c :: t).all (fun d => !(d == '\n'))) := by
  rw [wfCmt.eq_def]

/-- Unfolding of tokStreamWF at the empty stream. -/
theorem tokStreamWF_nil : tokStreamWF [] = true := by
  rw [tokStreamWF.eq_def]

/-- Unfolding of tokStreamWF at a bracketed path. -/
theorem tokStreamWF_triple (p : Str) (rest : List Tok) :
    tokStreamWF (.lb :: .path p :: .rb :: rest) =
      (p.all pathChar && tokStreamWF rest) := by
  rw [tokStreamWF.eq_def]

/-- Unfolding of tokStreamWF at a bare path token. -/
theorem tokStreamWF_path (p : Str) (rest : List Tok) :
    tokStreamWF (.path p :: rest) =
      (!p.isEmpty && p.all pathChar && tokStreamWF rest) := by
  rw [tokStreamWF.eq_def]

/-- Unfolding of tokStreamWF at a comment token. -/
theorem tokStreamWF_comment (txt : Str) (b : Bool) (rest : List Tok) :
    tokStreamWF (.comment txt b :: rest) = (wfCmt txt && tokStreamWF rest) := by
  rw [tokStreamWF.eq_def]

/-- Unfolding of tokStreamWF at a value token. -/
theorem tokStreamWF_val (v : Str) (rest : List Tok) :
    tokStreamWF (.val v :: rest) = (wfVal v && tokStreamWF rest) := by
  rw [tokStreamWF.eq_def]

/-- Unfolding of tokStreamWF at an equals token. -/
theorem tokStreamWF_eqtok (rest : List Tok) :
    tokStreamWF (.eq :: rest) = tokStreamWF rest := by
  rw [tokStreamWF.eq_def]

/-- Unfolding of tokStreamWF at a right bracket token. -/
theorem tokStreamWF_rbtok (rest : List Tok) :
    tokStreamWF (.rb :: rest) = tokStreamWF rest := by
  rw [tokStreamWF.eq_def]

/-- The lexer only produces well-formed token streams. -/
theorem lexMain_wf :
    ∀ (s : Str) (line : Nat) (seen : Bool) ts, lexMain s line seen = .ok ts →
      tokStreamWF (ts.map Token.t) = true := by
  intro s line seen
  induction s, line, seen using lexMain.induct
  case case1 line seen =>
    intro ts h
    rw [lexMain] at h
    have e := Except.ok.inj h
    rw [← e]
    rw [List.map_nil, tokStreamWF_nil]
  case case2 c cs line seen h1 ih =>
    intro ts h
    rw [lexMain, if_pos h1] at h
    exact ih ts h
  case case3 cs line seen h1 ih =>
    intro ts h
    rw [lexMain, if_neg h1, if_pos rfl] at h
    exact ih ts h
  case case4 cs line seen h1 h2 ih =>
    intro ts h
    rw [lexMain, if_neg h1, if_neg h2, if_pos rfl] at h
    cases hr : lexMain (List.dropWhile (fun d => !(d == '\n')) ('#' :: cs))
        line true with
    | error e' =>
      rw [hr] at h
      exact Except.noConfusion h
    | ok ts' =>
      rw [hr] at h
      simp [Except.map] at h
      rw [← h, List.map_cons, tokStreamWF_comment, Bool.and_eq_true]
      constructor
      · rw [wfCmt_cons, Bool.and_eq_true]
        refine ⟨by decide, ?_⟩
        rw [List.all_cons, Bool.and_eq_true]
        refine ⟨by decide, ?_⟩
        exact List.all_eq_true.mpr
          (fun d hd => by
            have hx := List.mem_takeWhile_imp hd
            exact hx)
      · exact ih ts' hr
  case case5 cs line seen rest hprop hm h1 h2 h3 ih =>
    intro ts h
    rw [lexMain, if_neg h1, if_neg h2, if_neg h3, if_pos rfl, hm] at h
    have h' : Except.map
        (fun ts => (⟨Tok.lb, line⟩ : Token) ::
          (⟨Tok.path (List.takeWhile pathChar cs), line⟩ : Token) ::
          (⟨Tok.rb, line⟩ : Token) :: ts) (lexMain rest line true) =
        Except.ok ts := h
    cases hr : lexMain rest line true with
    | error e' =>
      rw [hr] at h'
      exact Except.noConfusion h'
    | ok ts' =>
      rw [hr] at h'
      simp [Except.map] at h'
      rw [← h', List.map_cons, List.map_cons, List.map_cons, tokStreamWF_triple,
          Bool.and_eq_true]
      constructor
      · exact List.all_eq_true.mpr (fun d hd => List.mem_takeWhile_imp hd)
      · exact ih ts' hr
  case case6 cs line seen hnm h1 h2 h3 =>
    intro ts h
    rw [lexMain, if_neg h1, if_neg h2, if_neg h3, if_pos rfl] at h
    match hm : dropWhileB pathChar cs with
    | ⟨']' :: rest, hb⟩ => exact absurd hm (hnm rest hb)
    | ⟨[], hb⟩ =>
      rw [hm] at h
      exact Except.noConfusion h
    | ⟨d :: rest, hb⟩ =>
      rcases eq_or_ne d ']' with hd | hd
      · subst hd
        exact absurd hm (hnm rest hb)
      · rw [hm] at h
        simp [hd] at h
  case case7 cs line seen e0 hlv h1 h2 h3 h4 =>
    intro ts h
    rw [lexMain, if_neg h1, if_neg h2, if_neg h3, if_neg h4, if_pos rfl, hlv] at h
    exact Except.noConfusion h
  case case8 cs line seen rest line' hlv h1 h2 h3 h4 ih =>
    intro ts h
    rw [lexMain, if_neg h1, if_neg h2, if_neg h3, if_neg h4, if_pos rfl, hlv] at h
    have h' : Except.map (fun ts => (⟨Tok.eq, line⟩ : Token) :: ts)
        (lexMain rest.1 line' true) = Except.ok ts := h
    cases hr : lexMain rest.1 line' true with
    | error e' =>
      rw [hr] at h'
      exact Except.noConfusion h'
    | ok ts' =>
      rw [hr] at h'
      simp [Except.map] at h'
      rw [← h', List.map_cons, tokStreamWF_eqtok]
      exact ih ts' hr
  case case9 cs line seen t rest line' hlv h1 h2 h3 h4 ih =>
    intro ts h
    rw [lexMain, if_neg h1, if_neg h2, if_neg h3, if_neg h4, if_pos rfl, hlv] at h
    have h' : Except.map (fun ts => (⟨Tok.eq, line⟩ : Token) ::
        (⟨t, line'⟩ : Token) :: ts) (lexMain rest.1 line' true) = Except.ok ts := h
    cases hr : lexMain rest.1 line' true with
    | error e' =>
      rw [hr] at h'
      exact Except.noConfusion h'
    | ok ts' =>
      rw [hr] at h'
      simp [Except.map] at h'
      obtain ⟨v, hv, hwv⟩ := lexVal_wf cs line _ hlv t rfl
      rw [← h', List.map_cons, List.map_cons, tokStreamWF_eqtok, hv,
          tokStreamWF_val, Bool.and_eq_true]
      exact ⟨hwv, ih ts' hr⟩
  case case10 c cs line seen h1 h2 h3 h4 h5 hpc ih =>
    intro ts h
    rw [lexMain, if_neg h1, if_neg h2, if_neg h3, if_neg h4, if_neg h5,
        if_pos hpc] at h
    cases hr : lexMain (List.dropWhile pathChar (c :: cs)) line true with
    | error e' =>
      rw [hr] at h
      exact Except.noConfusion h
    | ok ts' =>
      rw [hr] at h
      simp [Except.map] at h
      rw [← h, List.map_cons, tokStreamWF_path]
      simp only [Bool.and_eq_true]
      refine ⟨⟨?_, ?_⟩, ih ts' hr⟩
      · rw [List.takeWhile_cons, hpc]
        simp
      · rw [List.takeWhile_cons, hpc, if_pos rfl, List.all_cons, hpc]
        simp only [Bool.true_and]
        exact List.all_eq_true.mpr (fun d hd => List.mem_takeWhile_imp hd)
  case case11 c cs line seen h1 h2 h3 h4 h5 h6 =>
    intro ts h
    rw [lexMain, if_neg h1, if_neg h2, if_neg h3, if_neg h4, if_neg h5] at h
    have hpc : pathChar c ≠ true := h6
    rw [if_neg hpc] at h
    exact Except.noConfusion h
/-- Appending one well-formed node keeps a child list well-formed. -/
theorem wfL_append_one :
    ∀ (a : List HNode) (x : HNode), wfL a = true → wfN x = true →
      wfL (a ++ [x]) = true := by
  intro a
  induction a with
  | nil =>
    intro x _ hx
    rw [List.nil_append, wfL, hx, wfL]
    rfl
  | cons c cs ih =>
    intro x h hx
    rw [wfL, Bool.and_eq_true] at h
    rw [List.cons_append, wfL, h.1, ih x h.2 hx]
    rfl

/-- On a well-formed token stream the parser only produces well-formed
    trees: a root whose child list satisfies the parser-output
    invariants. -/
theorem runP_wf :
    ∀ ts acc stk l, tokStreamWF (ts.map Token.t) = true → wfL acc = true →
      stkWF stk = true → ∀ t, runP ts acc stk l = .ok t →
      ∃ cs, t = .root cs ∧ wfL cs = true := by
  intro ts acc stk l
  induction ts, acc, stk, l using runP.induct
  all_goals intro hstream hacc hstk t h
  all_goals rw [runP.eq_def] at h
  all_goals try simp only [] at h
  case case1 =>
    rename_i acc2 lline
    exact ⟨acc2, (Except.ok.inj h).symm, hacc⟩
  case case3 txt inl l2 rest acc2 stk2 x ih =>
    rw [List.map_cons, tokStreamWF_comment, Bool.and_eq_true] at hstream
    refine ih hstream.2 ?_ hstk t h
    exact wfL_append_one acc2 _ hacc (by rw [wfN]; exact hstream.1)
  case case4 l2 p pl rl rest' acc2 lline hcl =>
    rw [if_pos hcl] at h
    exact Except.noConfusion h
  case case5 l2 p pl rl rest' acc2 lline hcl f stk' ih =>
    rw [if_pos hcl] at h
    rw [List.map_cons, List.map_cons, List.map_cons, tokStreamWF_triple,
        Bool.and_eq_true] at hstream
    rw [stkWF] at hstk
    simp only [Bool.and_eq_true] at hstk
    obtain ⟨⟨⟨⟨hs1, hs2⟩, hs3⟩, hs4⟩, hs5⟩ := hstk
    refine ih hstream.2 ?_ hs5 t h
    refine wfL_append_one f.2 _ hs4 ?_
    rw [wfN]
    simp only [Bool.and_eq_true]
    exact ⟨⟨⟨hs1, hs2⟩, hs3⟩, hacc⟩
  case case6 l2 p pl rl rest' acc2 stk2 lline hncl ih =>
    rw [if_neg hncl] at h
    rw [List.map_cons, List.map_cons, List.map_cons, tokStreamWF_triple,
        Bool.and_eq_true] at hstream
    push_neg at hncl
    have hpe : (!p.isEmpty) = true := by
      cases p with
      | nil => exact absurd rfl hncl.1
      | cons a as => rfl
    have hcl' : (!(decide (p = closingDots))) = true := by
      simp [hncl.2]
    refine ih hstream.2 (by rw [wfL]) ?_ t h
    rw [stkWF]
    simp only [Bool.and_eq_true]
    exact ⟨⟨⟨⟨hpe, hstream.1⟩, hcl'⟩, hacc⟩, hstk⟩
  case case8 p l2 el v vl rest3 acc2 stk2 x ih =>
    rw [List.map_cons, List.map_cons, List.map_cons, tokStreamWF_path,
        tokStreamWF_eqtok, tokStreamWF_val] at hstream
    simp only [Bool.and_eq_true] at hstream
    obtain ⟨⟨hs1, hs2⟩, hs3, hs4⟩ := hstream
    refine ih hs4 ?_ hstk t h
    refine wfL_append_one acc2 _ hacc ?_
    rw [wfN]
    simp only [Bool.and_eq_true]
    exact ⟨⟨⟨hs1, hs2⟩, by simp⟩, hs3⟩
  all_goals exact Except.noConfusion h
/-- Every tree parse returns is a root with parser-invariant children. -/
theorem parse_wf (fname s : Str) (t : HNode) (h : parse fname s = .ok t) :
    ∃ cs, t = .root cs ∧ wfL cs = true := by
  cases hl : lexMain s 1 false with
  | error e =>
    rw [parse, hl] at h
    exact Except.noConfusion h
  | ok ts =>
    have h1 : (match runP ts [] [] 1 with
        | Except.error e => (Except.error ⟨fname, e.line, e.msg⟩ : Except PErr HNode)
        | Except.ok t0 => Except.ok t0) = Except.ok t := by
      rw [parse, hl] at h
      exact h
    cases hr : runP ts [] [] 1 with
    | error e =>
      rw [hr] at h1
      exact Except.noConfusion h1
    | ok t' =>
      rw [hr] at h1
      have ht : t' = t := Except.ok.inj h1
      subst ht
      exact runP_wf ts [] [] 1 (lexMain_wf s 1 false ts hl) (by rw [wfL])
        (by rw [stkWF]) t' hr

/-- Scrubbing the comment inline flags preserves the round-trip equivalence
    (same node types, order, kinds and raw values). -/
theorem eqvL_scrubL :
    ∀ (N : Nat) (cs : List HNode), sizeOf cs ≤ N →
      eqvL cs (scrubL cs) = true := by
  intro N
  induction N with
  | zero =>
    intro cs hsz
    cases cs <;> simp at hsz
  | succ N ih =>
    intro cs hsz
    match cs with
    | [] => rw [scrubL, eqvL]
    | c :: cs' =>
      have hszc : sizeOf cs' ≤ N := by
        simp at hsz
        omega
      rw [scrubL, eqvL, Bool.and_eq_true]
      refine ⟨?_, ih cs' hszc⟩
      match c with
      | .root ks =>
        have hszk : sizeOf ks ≤ N := by
          simp at hsz
          omega
        rw [scrubN, eqvN]
        exact ih ks hszk
      | .sec p kids =>
        have hszk : sizeOf kids ≤ N := by
          simp at hsz
          omega
        rw [scrubN, eqvN, Bool.and_eq_true]
        exact ⟨by simp, ih kids hszk⟩
      | .field p k v =>
        rw [scrubN, eqvN]
        simp
      | .comment txt b =>
        rw [scrubN, eqvN]
        simp

/-- C4.  Round-trip: for every input accepted by parse, rendering the
    resulting tree and parsing it back succeeds and yields the same tree up
    to the comments' inline placement flags (render emits each comment on a
    line of its own), which is structurally and semantically equivalent:
    same node types, same child order, same kinds, same raw string
    values. -/
theorem C4_parse_render_roundtrip (fname s : Str) (t : HNode)
    (h : parse fname s = .ok t) :
    parse fname (render 0 t) = .ok (scrubN t) ∧ eqvN t (scrubN t) = true := by
  obtain ⟨cs, ht, hwf⟩ := parse_wf fname s t h
  subst ht
  constructor
  · obtain ⟨line', pre, hmap, hcont⟩ :=
      lexRender (sizeOf cs) cs (Nat.le_refl _) hwf 0 1 []
    have hlexnil : lexMain [] line' false = .ok [] := by rw [lexMain]
    have hlex := hcont [] hlexnil
    simp only [List.append_nil] at hlex
    obtain ⟨l', hrun⟩ := runRender (sizeOf cs) cs (Nat.le_refl _) hwf pre [] [] [] 1 hmap
    simp only [List.append_nil, List.nil_append] at hrun
    have hrun' : runP pre [] [] 1 = .ok (.root (scrubL cs)) := by
      rw [hrun, runP]
    have hr : render 0 (HNode.root cs) = renderList 0 cs := by rw [render]
    rw [hr]
    simp only [parse, hlex, hrun']
    rw [scrubN]
  · rw [scrubN, eqvN]
    exact eqvL_scrubL (sizeOf cs) cs (Nat.le_refl _)

/-- Witness for C4 at the concrete input of one field and one empty
    section: the render of its parse re-parses to the very same tree. -/
theorem C4_witness :
    parse (str "f")
        (render 0 (HNode.root [.field (str "a") Kind.int (str "1"),
          .sec (str "s") []])) =
      .ok (HNode.root [.field (str "a") Kind.int (str "1"), .sec (str "s") []])
    ∧ eqvN (HNode.root [.field (str "a") Kind.int (str "1"), .sec (str "s") []])
        (HNode.root [.field (str "a") Kind.int (str "1"),
          .sec (str "s") []]) = true := by
  have h := C4_parse_render_roundtrip (str "f") (str "a = 1\n[s]\n[]\n")
    (HNode.root [.field (str "a") Kind.int (str "1"), .sec (str "s") []])
    (by simp [parse, lexMain, lexVal, runP, str, inferKind, parseBoolLit,
          lowerStr, isNumberTok, hasDotOrExp, pathChar, valChar, closingDots,
          dropWhileB, List.dropWhile, List.takeWhile, scanQuoted, Except.map])
  have hs : scrubN (HNode.root [.field (str "a") Kind.int (str "1"),
      .sec (str "s") []]) =
      HNode.root [.field (str "a") Kind.int (str "1"), .sec (str "s") []] := by
    simp [scrubN, scrubL]
  rw [hs] at h
  exact h

end Hit
